import Mathlib

/-!
CloudStorage-System: the deduplicating chunk store.

A shallow embedding of `CloudStorage.h` / `CloudStorage.cpp`.

Modelling conventions
* `std::string` is a list of bytes (`CString`); a `char` is a byte whose numeric
  value is read as a signed 8-bit integer (`charVal`), the x86-64 convention.
* The `int` variables of the chunking loop (`totalSize`, `i`, `index`,
  `currentChunkSize`) are 32-bit. The conversion `int totalSize =
  content.length()` is the reduction modulo `2^32` into the range of `int`
  (`wrapInt`). An addition or subtraction on these variables that leaves the
  range of `int` is undefined in C++; the model gives it the two's complement
  result of the machine instruction, again `wrapInt`. The closed form of the
  loop (`splitIntoChunks_take`) is proved under a bound that keeps every such
  operation inside the range; only the runs shown to fail outside that bound
  rely on the wrap-around.
  The conversions to `size_t` made by `string::substr` are kept as well
  (`toSizeT`).
* Reference counts, usage totals and the `long long` statistics are
  mathematical integers (`Int`): they are taken to stay inside their machine
  range.
* `std::map<string, V>` is a strictly sorted association list (`SMap`), in the
  key order of `std::less<std::string>`; `operator[]` is `SMap.subscript`.
  The two `std::unordered_map`s of `CloudStorageSystem` are never iterated by
  the program and are represented by the same structure.
* A member function that mutates its object takes the object and returns the
  new one together with its result.
* A call that may fail to return yields an `Outcome`: it returns, it lets
  `std::out_of_range` escape, or the iteration budget of the model is used up.
-/

namespace CloudStorage

/-! ## Strings -/

/-- One `char`, as the byte it occupies. -/
abbrev CChar := Fin 256

/-- The type `std::string`: a finite sequence of bytes. -/
abbrev CString := List CChar

/-- Numeric value of a `char` in an arithmetic expression (signed 8-bit). -/
def charVal (c : CChar) : Int :=
  if c.val < 128 then (c.val : Int) else (c.val : Int) - 256

/-- Ordering `operator<` of `std::string`: lexicographic on unsigned byte values,
a proper initial segment being smaller. -/
def strLt : CString → CString → Bool
  | [], [] => false
  | [], _ :: _ => true
  | _ :: _, [] => false
  | a :: as, b :: bs => if a < b then true else if b < a then false else strLt as bs

/-- Conversion of an `int` to the 64-bit `size_t`: a negative value wraps around. -/
def toSizeT (v : Int) : Nat :=
  if v < 0 then (v + 18446744073709551616).toNat else v.toNat

/-- Value of an integer once it is held in a 32-bit `int`: the residue modulo
`2^32`, read as a two's complement number from `-2^31` to `2^31 - 1`. -/
def wrapInt (v : Int) : Int :=
  let r : Nat := (v % 4294967296).toNat
  if r < 2147483648 then (r : Int) else (r : Int) - 4294967296

/-- Member `string::substr(pos, count)`: `none` stands for `std::out_of_range`,
thrown when `pos > size()`. Both arguments arrive as `int` and are converted to
`size_t`. -/
def substr (s : CString) (pos count : Int) : Option CString :=
  if toSizeT pos > s.length then none
  else some ((s.drop (toSizeT pos)).take (toSizeT count))

/-- Decimal digits of a natural number, as bytes. -/
def digitsOf (n : Nat) : CString :=
  (Nat.toDigits 10 n).map (fun c => Fin.ofNat c.toNat)

/-- Function `std::to_string(long long)`: optional minus sign, decimal digits. -/
def to_string (v : Int) : CString :=
  if v < 0 then 45 :: digitsOf v.natAbs else digitsOf v.natAbs

/-! ## Ordered maps -/

/-- Lookup in an association list: the first entry with the key. -/
def rawFind {β : Type} (k : CString) : List (CString × β) → Option β
  | [] => none
  | (k', v) :: rest => if k' = k then some v else rawFind k rest

/-- Insert or overwrite in a sorted association list. -/
def rawInsert {β : Type} (k : CString) (v : β) : List (CString × β) → List (CString × β)
  | [] => [(k, v)]
  | (k', v') :: rest =>
    if strLt k k' then (k, v) :: (k', v') :: rest
    else if k' = k then (k, v) :: rest
    else (k', v') :: rawInsert k v rest

/-- Remove the entry with the key from an association list. -/
def rawErase {β : Type} (k : CString) : List (CString × β) → List (CString × β)
  | [] => []
  | (k', v') :: rest => if k' = k then rest else (k', v') :: rawErase k rest

/-- Keys strictly ascending. -/
def Sorted {β : Type} (l : List (CString × β)) : Prop :=
  l.Pairwise (fun a b => strLt a.1 b.1 = true)

theorem strLt_irrefl (a : CString) : strLt a a = false := by
  induction a with
  | nil => rfl
  | cons x xs ih => simp [strLt, ih]

theorem strLt_cons (x y : CChar) (xs ys : CString) :
    strLt (x :: xs) (y :: ys) = true ↔ x < y ∨ (x = y ∧ strLt xs ys = true) := by
  simp only [strLt]
  rcases lt_trichotomy x y with h | h | h
  · simp [h]
  · subst h; simp
  · have h1 : ¬ x < y := lt_asymm h
    have h2 : x ≠ y := ne_of_gt h
    simp [h, h1, h2]

theorem strLt_trans {a b c : CString} (h1 : strLt a b = true) (h2 : strLt b c = true) :
    strLt a c = true := by
  induction a generalizing b c with
  | nil =>
    cases b with
    | nil => simp [strLt] at h1
    | cons y ys =>
      cases c with
      | nil => simp [strLt] at h2
      | cons z zs => simp [strLt]
  | cons x xs ih =>
    cases b with
    | nil => simp [strLt] at h1
    | cons y ys =>
      cases c with
      | nil => simp [strLt] at h2
      | cons z zs =>
        rw [strLt_cons] at h1 h2 ⊢
        rcases h1 with h1 | ⟨rfl, h1⟩
        · rcases h2 with h2 | ⟨rfl, _⟩
          · exact Or.inl (lt_trans h1 h2)
          · exact Or.inl h1
        · rcases h2 with h2 | ⟨rfl, h2⟩
          · exact Or.inl h2
          · exact Or.inr ⟨rfl, ih h1 h2⟩

theorem strLt_total {a b : CString} (h1 : strLt a b = false) (h2 : strLt b a = false) :
    a = b := by
  induction a generalizing b with
  | nil =>
    cases b with
    | nil => rfl
    | cons y ys => simp [strLt] at h1
  | cons x xs ih =>
    cases b with
    | nil => simp [strLt] at h2
    | cons y ys =>
      have n1 : ¬ (strLt (x :: xs) (y :: ys) = true) := by simp [h1]
      have n2 : ¬ (strLt (y :: ys) (x :: xs) = true) := by simp [h2]
      rw [strLt_cons] at n1 n2
      have hxy : x = y := by
        rcases lt_trichotomy x y with h | h | h
        · exact absurd (Or.inl h) n1
        · exact h
        · exact absurd (Or.inl h) n2
      subst hxy
      have e1 : strLt xs ys = false := by
        cases hh : strLt xs ys
        · rfl
        · exact absurd (Or.inr ⟨rfl, hh⟩) n1
      have e2 : strLt ys xs = false := by
        cases hh : strLt ys xs
        · rfl
        · exact absurd (Or.inr ⟨rfl, hh⟩) n2
      rw [ih e1 e2]

theorem rawInsert_head_lt {β : Type} (k : CString) (v : β) (a : CString × β)
    (l : List (CString × β)) (hk : strLt a.1 k = true)
    (hl : ∀ b ∈ l, strLt a.1 b.1 = true) :
    ∀ b ∈ rawInsert k v l, strLt a.1 b.1 = true := by
  induction l with
  | nil =>
    intro b hb
    simp only [rawInsert, List.mem_singleton] at hb
    subst hb; exact hk
  | cons p rest ih =>
    intro b hb
    obtain ⟨k', v'⟩ := p
    simp only [rawInsert] at hb
    split_ifs at hb with h1 h2
    · rcases List.mem_cons.1 hb with rfl | hb
      · exact hk
      · exact hl b hb
    · rcases List.mem_cons.1 hb with rfl | hb
      · exact hk
      · exact hl b (List.mem_cons_of_mem _ hb)
    · rcases List.mem_cons.1 hb with rfl | hb
      · exact hl _ (List.mem_cons_self _ _)
      · exact ih (fun b hb => hl b (List.mem_cons_of_mem _ hb)) b hb

theorem rawInsert_sorted {β : Type} (k : CString) (v : β) (l : List (CString × β))
    (h : Sorted l) : Sorted (rawInsert k v l) := by
  induction l with
  | nil => simp [rawInsert, Sorted]
  | cons p rest ih =>
    obtain ⟨k', v'⟩ := p
    unfold Sorted at h ih ⊢
    rw [List.pairwise_cons] at h
    simp only [rawInsert]
    split_ifs with h1 h2
    · refine List.pairwise_cons.2 ⟨?_, List.pairwise_cons.2 h⟩
      intro b hb
      rcases List.mem_cons.1 hb with rfl | hb
      · exact h1
      · exact strLt_trans h1 (h.1 b hb)
    · subst h2
      exact List.pairwise_cons.2 h
    · refine List.pairwise_cons.2 ⟨?_, ih h.2⟩
      have hlt : strLt k' k = true := by
        by_contra hc
        exact h2 (strLt_total (by simpa using hc) (by simpa using h1))
      exact rawInsert_head_lt k v (k', v') rest hlt h.1

theorem rawErase_sublist {β : Type} (k : CString) (l : List (CString × β)) :
    (rawErase k l).Sublist l := by
  induction l with
  | nil => exact List.Sublist.refl _
  | cons p rest ih =>
    obtain ⟨k', v'⟩ := p
    simp only [rawErase]
    split_ifs
    · exact List.sublist_cons_self _ _
    · exact ih.cons₂ _

theorem rawErase_sorted {β : Type} (k : CString) (l : List (CString × β))
    (h : Sorted l) : Sorted (rawErase k l) :=
  List.Pairwise.sublist (rawErase_sublist k l) h

/-- The type `std::map<std::string, β>`: entries in strictly ascending key order. -/
structure SMap (β : Type) where
  entries : List (CString × β)
  sorted : Sorted entries
deriving DecidableEq

namespace SMap

/-- The empty map. -/
def empty {β : Type} : SMap β := ⟨[], List.Pairwise.nil⟩

/-- Value bound to the key, if any (`find`). -/
def find? {β : Type} (m : SMap β) (k : CString) : Option β := rawFind k m.entries

/-- Test `find(k) != end()`. -/
def contains {β : Type} (m : SMap β) (k : CString) : Bool := (m.find? k).isSome

/-- Assignment `m[k] = v`. -/
def insert {β : Type} (m : SMap β) (k : CString) (v : β) : SMap β :=
  ⟨rawInsert k v m.entries, rawInsert_sorted k v m.entries m.sorted⟩

/-- Member `erase(k)`. -/
def erase {β : Type} (m : SMap β) (k : CString) : SMap β :=
  ⟨rawErase k m.entries, rawErase_sorted k m.entries m.sorted⟩

/-- Read through `operator[]`: an absent key is first bound to the
value-initialised `dflt`. Returns the map afterwards and the value read. -/
def subscript {β : Type} (m : SMap β) (k : CString) (dflt : β) : SMap β × β :=
  match m.find? k with
  | some v => (m, v)
  | none => (m.insert k dflt, dflt)

/-- Member `size()`. -/
def size {β : Type} (m : SMap β) : Nat := m.entries.length

end SMap

/-! ## Class `StorageSystem` -/

/-- Record `struct Chunk`. -/
structure Chunk where
  chunkHash : CString
  chunkIndex : Int
  chunkSize : Int
deriving DecidableEq

/-- Data members of `class StorageSystem`. -/
structure StorageSystem where
  storage : SMap CString
  refCount : SMap Int
  chunkSize : Int
deriving DecidableEq

/-- How a call that may not return ends. -/
inductive Outcome (α : Type) where
  | ret (a : α)
  | outOfRange
  | noFuel
deriving DecidableEq

/-- Constructor `StorageSystem::StorageSystem(int chunkSz)`; both maps start empty. -/
def StorageSystem.init (chunkSz : Int) : StorageSystem :=
  { storage := SMap.empty, refCount := SMap.empty, chunkSize := chunkSz }

/-- Member `StorageSystem::simpleHash`; `%` on `long long` truncates toward zero. -/
def simpleHash (content : CString) : CString :=
  to_string (content.foldl (fun hash c => Int.tmod (hash * 31 + charVal c) 1000000007) 0)

/-- Member `StorageSystem::storeChunk`. -/
def storeChunk (s : StorageSystem) (chunkHash chunkContent : CString) : StorageSystem × Bool :=
  if s.storage.contains chunkHash then
    let r := s.refCount.subscript chunkHash 0
    ({ s with refCount := r.1.insert chunkHash (r.2 + 1) }, false)
  else
    ({ s with storage := s.storage.insert chunkHash chunkContent,
              refCount := s.refCount.insert chunkHash 1 }, true)

/-- Member `StorageSystem::getChunkContent`. -/
def getChunkContent (s : StorageSystem) (chunkHash : CString) : StorageSystem × CString :=
  if s.storage.contains chunkHash then
    let r := s.storage.subscript chunkHash []
    ({ s with storage := r.1 }, r.2)
  else (s, [])

/-- Member `StorageSystem::deleteChunk`. -/
def deleteChunk (s : StorageSystem) (chunkHash : CString) : StorageSystem :=
  if s.storage.contains chunkHash then
    let r := s.refCount.subscript chunkHash 0
    let rc := r.1.insert chunkHash (r.2 - 1)
    let t := rc.subscript chunkHash 0
    if t.2 ≤ 0 then
      { s with storage := s.storage.erase chunkHash, refCount := t.1.erase chunkHash }
    else { s with refCount := t.1 }
  else s

/-- The loop of `StorageSystem::splitIntoChunks`, one iteration per unit of fuel.
`i` and `index` are the `int` loop variables, `chunks` the vector built so far,
`totalSize` the `int` holding the content length. -/
def splitLoop (content : CString) (totalSize : Int) :
    Nat → StorageSystem → Int → Int → List Chunk → Outcome (StorageSystem × List Chunk)
  | 0, _, _, _, _ => Outcome.noFuel
  | fuel + 1, s, i, index, chunks =>
    if i < totalSize then
      let currentChunkSize := min s.chunkSize (wrapInt (totalSize - i))
      match substr content i currentChunkSize with
      | none => Outcome.outOfRange
      | some chunkContent =>
        let newChunk : Chunk :=
          { chunkHash := simpleHash chunkContent, chunkIndex := index,
            chunkSize := currentChunkSize }
        splitLoop content totalSize fuel (storeChunk s newChunk.chunkHash chunkContent).1
          (wrapInt (i + s.chunkSize)) (wrapInt (index + 1)) (chunks ++ [newChunk])
    else Outcome.ret (s, chunks)

/-- Member `StorageSystem::splitIntoChunks`. `totalSize` is the content length
narrowed to `int`. The budget `length + 1` covers every run with a chunk size of
at least one in which `i` stays in the range of `int` (at most `length`
iterations and the final test). -/
def splitIntoChunks (s : StorageSystem) (content : CString) :
    Outcome (StorageSystem × List Chunk) :=
  splitLoop content (wrapInt content.length) (content.length + 1) s 0 0 []

/-- The loop of `splitIntoChunks` again, also recording what each `storeChunk`
call returned (the source discards it, printing a line when it is `false`). -/
def splitLoopLog (content : CString) (totalSize : Int) :
    Nat → StorageSystem → Int → Int → List Chunk → List Bool →
      Outcome (StorageSystem × List Chunk × List Bool)
  | 0, _, _, _, _, _ => Outcome.noFuel
  | fuel + 1, s, i, index, chunks, log =>
    if i < totalSize then
      let currentChunkSize := min s.chunkSize (wrapInt (totalSize - i))
      match substr content i currentChunkSize with
      | none => Outcome.outOfRange
      | some chunkContent =>
        let newChunk : Chunk :=
          { chunkHash := simpleHash chunkContent, chunkIndex := index,
            chunkSize := currentChunkSize }
        let r := storeChunk s newChunk.chunkHash chunkContent
        splitLoopLog content totalSize fuel r.1
          (wrapInt (i + s.chunkSize)) (wrapInt (index + 1)) (chunks ++ [newChunk])
          (log ++ [r.2])
    else Outcome.ret (s, chunks, log)

/-- Member `splitIntoChunks` with the record of its `storeChunk` results. -/
def splitIntoChunksLog (s : StorageSystem) (content : CString) :
    Outcome (StorageSystem × List Chunk × List Bool) :=
  splitLoopLog content (wrapInt content.length) (content.length + 1) s 0 0 [] []

/-- Member `StorageSystem::getTotalChunks`. -/
def getTotalChunks (s : StorageSystem) : Int :=
  s.refCount.entries.foldl (fun total pair => total + pair.2) 0

/-- Member `StorageSystem::getUniqueChunks`. -/
def getUniqueChunks (s : StorageSystem) : Int :=
  (s.storage.size : Int)

/-- Member `StorageSystem::getSavedSpace`; reading `refCount[chunkHash]` goes
through `operator[]`, so the object is returned as well. The accumulator holds
`refCount`, `totalSpace` and `actualSpace`. -/
def getSavedSpace (s : StorageSystem) : StorageSystem × Int :=
  let r := s.storage.entries.foldl
    (fun (acc : SMap Int × Int × Int) pair =>
      let q := acc.1.subscript pair.1 0
      (q.1, acc.2.1 + (pair.2.length : Int) * q.2, acc.2.2 + (pair.2.length : Int)))
    (s.refCount, 0, 0)
  ({ s with refCount := r.1 }, r.2.1 - r.2.2)

/-! ## Class `User` -/

/-- Data members of `class User`. -/
structure User where
  username : CString
  password : CString
  storageUsed : Int
  storageLimit : Int
deriving DecidableEq

/-- Default constructor `User::User()`. -/
def User.default : User :=
  { username := [], password := [], storageUsed := 0, storageLimit := 1000000 }

/-- Constructor `User::User(uname, pass, limit)`. -/
def User.init (uname pass : CString) (limit : Int) : User :=
  { username := uname, password := pass, storageUsed := 0, storageLimit := limit }

/-- Member `User::verifyPassword`. -/
def User.verifyPassword (u : User) (pass : CString) : Bool := decide (u.password = pass)

/-- Member `User::updateStorage`. -/
def User.updateStorage (u : User) (size : Int) : User :=
  { u with storageUsed := u.storageUsed + size }

/-- Member `User::hasSpaceFor`. -/
def User.hasSpaceFor (u : User) (size : Int) : Bool := decide (u.storageUsed + size ≤ u.storageLimit)

/-! ## Class `CloudStorageSystem` -/

/-- Record `struct FileInfo`. -/
structure FileInfo where
  fileName : CString
  chunks : List Chunk
  fileSize : Int
  uploadDate : CString
  owner : CString
deriving DecidableEq

/-- Data members of `class CloudStorageSystem`. -/
structure CloudStorageSystem where
  users : SMap User
  userFiles : SMap (List FileInfo)
  currentUser : CString
  isLoggedIn : Bool
  storageSystem : StorageSystem
deriving DecidableEq

/-- Constructor `CloudStorageSystem::CloudStorageSystem()`; the member
`storageSystem` is built with the default chunk size 50. -/
def CloudStorageSystem.init : CloudStorageSystem :=
  { users := SMap.empty, userFiles := SMap.empty, currentUser := [], isLoggedIn := false,
    storageSystem := StorageSystem.init 50 }

/-- Member `CloudStorageSystem::registerUser`. -/
def registerUser (s : CloudStorageSystem) (username password : CString) :
    CloudStorageSystem × Bool :=
  if s.users.contains username then (s, false)
  else
    ({ s with users := s.users.insert username (User.init username password 1000000),
              userFiles := s.userFiles.insert username [] }, true)

/-- Member `CloudStorageSystem::loginUser`. -/
def loginUser (s : CloudStorageSystem) (username password : CString) :
    CloudStorageSystem × Bool :=
  if s.users.contains username then
    let r := s.users.subscript username User.default
    if r.2.verifyPassword password then
      ({ s with users := r.1, currentUser := username, isLoggedIn := true }, true)
    else ({ s with users := r.1 }, false)
  else (s, false)

/-- Member `CloudStorageSystem::logoutUser`. -/
def logoutUser (s : CloudStorageSystem) : CloudStorageSystem :=
  if s.isLoggedIn then { s with currentUser := [], isLoggedIn := false } else s

/-- Member `CloudStorageSystem::uploadFile`; `uploadDate` is the string that
`getCurrentDate()` yields at the time of the call. -/
def uploadFile (s : CloudStorageSystem) (fileName fileContent uploadDate : CString) :
    Outcome (CloudStorageSystem × Bool) :=
  if s.isLoggedIn then
    let fileSize : Int := fileContent.length
    let u := s.users.subscript s.currentUser User.default
    if u.2.hasSpaceFor fileSize then
      let f := s.userFiles.subscript s.currentUser []
      if f.2.any (fun file => decide (file.fileName = fileName)) then
        Outcome.ret ({ s with users := u.1, userFiles := f.1 }, false)
      else
        match splitIntoChunks s.storageSystem fileContent with
        | Outcome.ret (st, chunks) =>
          let newFile : FileInfo :=
            { fileName := fileName, chunks := chunks, fileSize := fileSize,
              uploadDate := uploadDate, owner := s.currentUser }
          let files := (f.1.subscript s.currentUser []).1.insert s.currentUser
            ((f.1.subscript s.currentUser []).2 ++ [newFile])
          let us := (u.1.subscript s.currentUser User.default).1.insert s.currentUser
            ((u.1.subscript s.currentUser User.default).2.updateStorage fileSize)
          Outcome.ret ({ s with users := us, userFiles := files, storageSystem := st }, true)
        | Outcome.outOfRange => Outcome.outOfRange
        | Outcome.noFuel => Outcome.noFuel
    else Outcome.ret ({ s with users := u.1 }, false)
  else Outcome.ret (s, false)

/-- The inner loop of `downloadFile`: appends the content of every chunk of the
list, in order, to `fileContent`. -/
def reconstruct (st : StorageSystem) (chunks : List Chunk) (fileContent : CString) :
    StorageSystem × CString :=
  chunks.foldl
    (fun acc chunk => ((getChunkContent acc.1 chunk.chunkHash).1,
      acc.2 ++ (getChunkContent acc.1 chunk.chunkHash).2))
    (st, fileContent)

/-- Member `CloudStorageSystem::downloadFile`; the reference parameter
`fileContent` is passed in and handed back as the third component. -/
def downloadFile (s : CloudStorageSystem) (fileName fileContent : CString) :
    CloudStorageSystem × Bool × CString :=
  if s.isLoggedIn then
    let f := s.userFiles.subscript s.currentUser []
    match f.2.find? (fun file => decide (file.fileName = fileName)) with
    | some file =>
      let r := reconstruct s.storageSystem file.chunks []
      ({ s with userFiles := f.1, storageSystem := r.1 }, true, r.2)
    | none => ({ s with userFiles := f.1 }, false, fileContent)
  else (s, false, fileContent)

/-- The inner loop of `deleteFile`: one `deleteChunk` per chunk of the list. -/
def releaseChunks (st : StorageSystem) (chunks : List Chunk) : StorageSystem :=
  chunks.foldl (fun acc chunk => deleteChunk acc chunk.chunkHash) st

/-- Member `CloudStorageSystem::deleteFile`. -/
def deleteFile (s : CloudStorageSystem) (fileName : CString) : CloudStorageSystem × Bool :=
  if s.isLoggedIn then
    let f := s.userFiles.subscript s.currentUser []
    match f.2.find? (fun file => decide (file.fileName = fileName)) with
    | some file =>
      let st := releaseChunks s.storageSystem file.chunks
      let files := f.1.insert s.currentUser
        (f.2.eraseP (fun file => decide (file.fileName = fileName)))
      let u := s.users.subscript s.currentUser User.default
      ({ s with users := u.1.insert s.currentUser (u.2.updateStorage (-file.fileSize)),
                userFiles := files, storageSystem := st }, true)
    | none => ({ s with userFiles := f.1 }, false)
  else (s, false)

/-- Member `CloudStorageSystem::listFiles`. -/
def listFiles (s : CloudStorageSystem) : CloudStorageSystem × List FileInfo :=
  if s.isLoggedIn then
    let f := s.userFiles.subscript s.currentUser []
    ({ s with userFiles := f.1 }, f.2)
  else (s, [])

/-! ## Auxiliary functions used to describe results -/

/-- Number of iterations of the chunking loop for a content of `len` bytes. -/
def nChunks (S len : Nat) : Nat := (len + S - 1) / S

/-- The content length as `splitIntoChunks` holds it in `int totalSize`, a
negative value counting as no bytes: the number of bytes the loop treats. -/
def intLength (content : CString) : Nat :=
  (wrapInt (content.length : Int)).toNat

/-- The `j`-th segment of the content for chunk size `S`. -/
def segment (S : Nat) (content : CString) (j : Nat) : CString :=
  (content.drop (j * S)).take S

/-- The `Chunk` record made for the `j`-th segment. -/
def chunkAt (S : Nat) (content : CString) (j : Nat) : Chunk :=
  { chunkHash := simpleHash (segment S content j), chunkIndex := (j : Int),
    chunkSize := min (S : Int) ((content.length : Int) - ((j * S : Nat) : Int)) }

/-- All segments of the content, in order. -/
def segments (S : Nat) (content : CString) : List CString :=
  (List.range (nChunks S content.length)).map (segment S content)

/-- All `Chunk` records of the content, in order. -/
def chunksOf (S : Nat) (content : CString) : List Chunk :=
  (List.range (nChunks S content.length)).map (chunkAt S content)

/-- State after `storeChunk` has been called for every segment of a list. -/
def storeAll : StorageSystem → List CString → StorageSystem
  | s, [] => s
  | s, c :: cs => storeAll (storeChunk s (simpleHash c) c).1 cs

/-- Results of the `storeChunk` calls made for every segment of a list. -/
def storeLog : StorageSystem → List CString → List Bool
  | _, [] => []
  | s, c :: cs => (storeChunk s (simpleHash c) c).2 :: storeLog (storeChunk s (simpleHash c) c).1 cs

/-- Consistency of the two maps of a `StorageSystem`: same keys, positive counts. -/
def StoreInv (s : StorageSystem) : Prop :=
  ∀ k : CString, (s.storage.contains k = true ↔ s.refCount.contains k = true) ∧
    ∀ n : Int, s.refCount.find? k = some n → 0 < n

/-- The store holds exactly the keys of the list `M`, each with its number of
occurrences in `M` as reference count. -/
def Counted (s : StorageSystem) (M : List CString) : Prop :=
  ∀ k : CString,
    s.refCount.find? k = (if M.count k = 0 then none else some (M.count k : Int)) ∧
    (s.storage.contains k = true ↔ M.count k ≠ 0)

/-- A sequence of uploads: `splitIntoChunks` on each content in turn, collecting
the chunk lists returned. -/
def uploadAll : StorageSystem → List CString → Outcome (StorageSystem × List (List Chunk))
  | s, [] => Outcome.ret (s, [])
  | s, B :: Bs =>
    match splitIntoChunks s B with
    | Outcome.ret (s1, cs) =>
      match uploadAll s1 Bs with
      | Outcome.ret (s2, ms) => Outcome.ret (s2, cs :: ms)
      | Outcome.outOfRange => Outcome.outOfRange
      | Outcome.noFuel => Outcome.noFuel
    | Outcome.outOfRange => Outcome.outOfRange
    | Outcome.noFuel => Outcome.noFuel

/-- A sequence of deletions: the release loop of `deleteFile` on each chunk list in turn. -/
def deleteAll (s : StorageSystem) (ms : List (List Chunk)) : StorageSystem :=
  ms.foldl releaseChunks s

/-- All keys of a collection of chunk lists, repeats included. -/
def keysOf (ms : List (List Chunk)) : List CString :=
  ms.flatMap (fun cs => cs.map (fun c => c.chunkHash))

/-- Keys listed by the files of one user, in order, repeats included. -/
def fileKeys (files : List FileInfo) : List CString :=
  files.flatMap (fun f => f.chunks.map (fun c => c.chunkHash))

/-- Keys listed by all files of all users of a `userFiles` map. -/
def allKeysOf (m : SMap (List FileInfo)) : List CString :=
  m.entries.flatMap (fun e => fileKeys e.2)

/-- Number of `Chunk` entries with `chunkHash = k` over the chunk lists of all
files of all users. -/
def occurrences (s : CloudStorageSystem) (k : CString) : Nat :=
  (s.userFiles.entries.map (fun e =>
    (e.2.map (fun f => f.chunks.countP (fun c => decide (c.chunkHash = k)))).sum)).sum

/-- States of a `CloudStorageSystem` reachable from the initial one through
`registerUser`, `loginUser`, `logoutUser`, `uploadFile`, `downloadFile` and
`deleteFile`. -/
inductive CloudReachable : CloudStorageSystem → Prop
  | init : CloudReachable CloudStorageSystem.init
  | register (s : CloudStorageSystem) (username password : CString) :
      CloudReachable s → CloudReachable (registerUser s username password).1
  | login (s : CloudStorageSystem) (username password : CString) :
      CloudReachable s → CloudReachable (loginUser s username password).1
  | logout (s : CloudStorageSystem) :
      CloudReachable s → CloudReachable (logoutUser s)
  | upload (s s' : CloudStorageSystem) (fileName fileContent uploadDate : CString) (ok : Bool) :
      CloudReachable s →
      uploadFile s fileName fileContent uploadDate = Outcome.ret (s', ok) →
      CloudReachable s'
  | download (s : CloudStorageSystem) (fileName fileContent : CString) :
      CloudReachable s → CloudReachable (downloadFile s fileName fileContent).1
  | delete (s : CloudStorageSystem) (fileName : CString) :
      CloudReachable s → CloudReachable (deleteFile s fileName).1

/-- The state after user `u` registers, logs in and uploads the three bytes `abc`
as file `f`. -/
def demoState : CloudStorageSystem :=
  match uploadFile (loginUser (registerUser CloudStorageSystem.init [117] [112]).1 [117] [112]).1
      [102] [97, 98, 99] [] with
  | Outcome.ret (s, _) => s
  | Outcome.outOfRange => CloudStorageSystem.init
  | Outcome.noFuel => CloudStorageSystem.init

/-- What holds in every reachable state: the store counts the listed keys, the
chunk size is 50, every key of `userFiles` is a registered user, and so is the
user logged in. -/
def CloudInv (s : CloudStorageSystem) : Prop :=
  Counted s.storageSystem (allKeysOf s.userFiles) ∧
  s.storageSystem.chunkSize = 50 ∧
  (∀ k : CString, s.userFiles.contains k = true → s.users.contains k = true) ∧
  (s.isLoggedIn = true → s.users.contains s.currentUser = true)

/-- A logged-in state in which the store holds the chunk `ab` only, while the
file `f` of user `u` lists that chunk followed by a key the store does not hold. -/
def danglingState : CloudStorageSystem :=
  { users := SMap.empty.insert [117] (User.init [117] [112] 1000000),
    userFiles := SMap.empty.insert [117]
      [{ fileName := [102],
         chunks := [{ chunkHash := simpleHash [97, 98], chunkIndex := 0, chunkSize := 2 },
                    { chunkHash := [49], chunkIndex := 1, chunkSize := 1 }],
         fileSize := 3, uploadDate := [], owner := [117] }],
    currentUser := [117], isLoggedIn := true,
    storageSystem := (storeChunk (StorageSystem.init 50) (simpleHash [97, 98]) [97, 98]).1 }

/-- The loop of `getSavedSpace` on its own: `refCount` after the loop, then the
local variables `totalSpace` and `actualSpace`. -/
def spaceTotals (s : StorageSystem) : SMap Int × Int × Int :=
  s.storage.entries.foldl
    (fun (acc : SMap Int × Int × Int) pair =>
      let q := acc.1.subscript pair.1 0
      (q.1, acc.2.1 + (pair.2.length : Int) * q.2, acc.2.2 + (pair.2.length : Int)))
    (s.refCount, 0, 0)

/-- The state `demoState` after the same user uploads the same three bytes again
as file `g`: two files that share their chunk. -/
def sharedState : CloudStorageSystem :=
  match uploadFile demoState [103] [97, 98, 99] [] with
  | Outcome.ret (s, _) => s
  | Outcome.outOfRange => CloudStorageSystem.init
  | Outcome.noFuel => CloudStorageSystem.init

/-- What holds of the accounts in every reachable state: every registered user has
a file list; the limit of a registered user is 1000000, the bytes used are the
sum of the sizes of the files listed and stay within the limit; the size of a
listed file is the sum of the sizes of its chunks and is not negative. -/
def AccountInv (s : CloudStorageSystem) : Prop :=
  (∀ k : CString, s.users.contains k = true → s.userFiles.contains k = true) ∧
  (∀ (u : CString) (user : User), s.users.find? u = some user →
    user.storageLimit = 1000000 ∧
    user.storageUsed = (((s.userFiles.find? u).getD []).map (fun f => f.fileSize)).sum ∧
    user.storageUsed ≤ 1000000) ∧
  (∀ (u : CString) (files : List FileInfo) (f : FileInfo),
    s.userFiles.find? u = some files → f ∈ files →
    f.fileSize = (f.chunks.map (fun c => c.chunkSize)).sum ∧ 0 ≤ f.fileSize)

end CloudStorage

namespace CloudStorage

/-! ## Lemmas on ordered maps -/

theorem rawFind_insert_self {β : Type} (k : CString) (v : β) (l : List (CString × β)) :
    rawFind k (rawInsert k v l) = some v := by
  induction l with
  | nil => simp [rawInsert, rawFind]
  | cons p rest ih =>
    obtain ⟨k', v'⟩ := p
    simp only [rawInsert]
    split_ifs with h1 h2
    · simp [rawFind]
    · simp [rawFind]
    · simp [rawFind, h2, ih]

theorem rawFind_insert_ne {β : Type} (k k2 : CString) (v : β) (l : List (CString × β))
    (hne : k2 ≠ k) : rawFind k2 (rawInsert k v l) = rawFind k2 l := by
  induction l with
  | nil => simp [rawInsert, rawFind, Ne.symm hne]
  | cons p rest ih =>
    obtain ⟨k', v'⟩ := p
    simp only [rawInsert]
    split_ifs with h1 h2
    · simp [rawFind, Ne.symm hne]
    · subst h2; simp [rawFind, Ne.symm hne]
    · simp only [rawFind, ih]

theorem rawFind_erase_ne {β : Type} (k k2 : CString) (l : List (CString × β))
    (hne : k2 ≠ k) : rawFind k2 (rawErase k l) = rawFind k2 l := by
  induction l with
  | nil => rfl
  | cons p rest ih =>
    obtain ⟨k', v'⟩ := p
    simp only [rawErase]
    split_ifs with h1
    · subst h1; simp [rawFind, Ne.symm hne]
    · simp only [rawFind, ih]

theorem rawFind_none_of_lt {β : Type} (k : CString) (l : List (CString × β))
    (h : ∀ b ∈ l, strLt k b.1 = true) : rawFind k l = none := by
  induction l with
  | nil => rfl
  | cons p rest ih =>
    obtain ⟨k', v'⟩ := p
    have hk : strLt k k' = true := h (k', v') (List.mem_cons_self _ _)
    have hne : k' ≠ k := by
      intro e; subst e; rw [strLt_irrefl] at hk; exact Bool.noConfusion hk
    simp only [rawFind, hne, if_false]
    exact ih (fun b hb => h b (List.mem_cons_of_mem _ hb))

theorem rawFind_erase_self {β : Type} (k : CString) (l : List (CString × β))
    (h : Sorted l) : rawFind k (rawErase k l) = none := by
  induction l with
  | nil => rfl
  | cons p rest ih =>
    obtain ⟨k', v'⟩ := p
    unfold Sorted at h ih
    rw [List.pairwise_cons] at h
    simp only [rawErase]
    split_ifs with h1
    · subst h1; exact rawFind_none_of_lt _ rest h.1
    · simp only [rawFind, h1, if_false]; exact ih h.2

theorem rawInsert_insert {β : Type} (k : CString) (v w : β) (l : List (CString × β)) :
    rawInsert k w (rawInsert k v l) = rawInsert k w l := by
  induction l with
  | nil => simp [rawInsert, strLt_irrefl]
  | cons p rest ih =>
    obtain ⟨k', v'⟩ := p
    simp only [rawInsert]
    split_ifs with h1 h2
    · simp [rawInsert, strLt_irrefl]
    · simp [rawInsert, strLt_irrefl]
    · simp only [rawInsert, h1, h2, if_false, ih]
      simp

theorem rawErase_of_not_mem {β : Type} (k : CString) (l : List (CString × β))
    (h : rawFind k l = none) : rawErase k l = l := by
  induction l with
  | nil => rfl
  | cons p rest ih =>
    obtain ⟨k', v'⟩ := p
    simp only [rawFind] at h
    split_ifs at h with h1
    simp only [rawErase, h1, if_false, ih h]

theorem rawErase_insert {β : Type} (k : CString) (v : β) (l : List (CString × β))
    (h : Sorted l) : rawErase k (rawInsert k v l) = rawErase k l := by
  induction l with
  | nil => simp [rawInsert, rawErase]
  | cons p rest ih =>
    obtain ⟨k', v'⟩ := p
    unfold Sorted at h ih
    rw [List.pairwise_cons] at h
    simp only [rawInsert]
    split_ifs with h1 h2
    · have hne : k' ≠ k := by
        intro e; subst e; rw [strLt_irrefl] at h1; exact Bool.noConfusion h1
      have hnone : ∀ b ∈ rest, strLt k b.1 = true := fun b hb => strLt_trans h1 (h.1 b hb)
      simp only [rawErase, if_true, hne, if_false]
      rw [rawErase_of_not_mem k rest (rawFind_none_of_lt k rest hnone)]
    · simp [rawErase, h2]
    · simp only [rawErase, h2, if_false, ih h.2]

theorem rawInsert_length {β : Type} (k : CString) (v : β) (l : List (CString × β))
    (h : Sorted l) :
    (rawInsert k v l).length = if (rawFind k l).isSome then l.length else l.length + 1 := by
  induction l with
  | nil => simp [rawInsert, rawFind]
  | cons p rest ih =>
    obtain ⟨k', v'⟩ := p
    unfold Sorted at h ih
    rw [List.pairwise_cons] at h
    simp only [rawInsert]
    split_ifs with h1 h2 h3 h4 h5
    · exfalso
      have hne : k' ≠ k := by
        intro e; subst e; rw [strLt_irrefl] at h1; exact Bool.noConfusion h1
      have hnone : rawFind k rest = none :=
        rawFind_none_of_lt k rest (fun b hb => strLt_trans h1 (h.1 b hb))
      simp [rawFind, hne, hnone] at h2
    · simp
    · simp
    · simp [rawFind, h3] at h4
    · simp only [rawFind, h3, if_false] at h5
      simp [ih h.2, h5]
    · simp only [rawFind, h3, if_false] at h5
      simp [ih h.2, h5]

theorem rawErase_length {β : Type} (k : CString) (l : List (CString × β)) :
    (rawErase k l).length + (if (rawFind k l).isSome then 1 else 0) = l.length := by
  induction l with
  | nil => simp [rawErase, rawFind]
  | cons p rest ih =>
    obtain ⟨k', v'⟩ := p
    by_cases h1 : k' = k
    · simp [rawErase, rawFind, h1]
    · simp only [rawErase, rawFind, h1, if_false, List.length_cons]
      omega

theorem rawInsert_sum {β : Type} (g : β → Int) (k : CString) (v : β)
    (l : List (CString × β)) (h : Sorted l) :
    ((rawInsert k v l).map (fun p => g p.2)).sum =
      (l.map (fun p => g p.2)).sum - ((rawFind k l).map g).getD 0 + g v := by
  induction l with
  | nil => simp [rawInsert, rawFind]
  | cons p rest ih =>
    obtain ⟨k', v'⟩ := p
    unfold Sorted at h ih
    rw [List.pairwise_cons] at h
    simp only [rawInsert, rawFind]
    split_ifs with h1 h2 h3
    · exfalso; subst h2; rw [strLt_irrefl] at h1; exact Bool.noConfusion h1
    · have hnone : rawFind k rest = none :=
        rawFind_none_of_lt k rest (fun b hb => strLt_trans h1 (h.1 b hb))
      simp only [List.map_cons, List.sum_cons, hnone, Option.map_none', Option.getD_none]
      omega
    · simp only [List.map_cons, List.sum_cons, Option.map_some', Option.getD_some]
      omega
    · simp only [List.map_cons, List.sum_cons, ih h.2]
      omega

theorem rawErase_sum {β : Type} (g : β → Int) (k : CString) (l : List (CString × β)) :
    ((rawErase k l).map (fun p => g p.2)).sum =
      (l.map (fun p => g p.2)).sum - ((rawFind k l).map g).getD 0 := by
  induction l with
  | nil => simp [rawErase, rawFind]
  | cons p rest ih =>
    obtain ⟨k', v'⟩ := p
    simp only [rawErase, rawFind]
    split_ifs with h1
    · simp only [List.map_cons, List.sum_cons, Option.map_some', Option.getD_some]
      omega
    · simp only [List.map_cons, List.sum_cons, ih]
      omega

theorem rawFind_all_none {β : Type} (l : List (CString × β))
    (h : ∀ k, rawFind k l = none) : l = [] := by
  cases l with
  | nil => rfl
  | cons p rest =>
    obtain ⟨k', v'⟩ := p
    have := h k'
    simp [rawFind] at this

namespace SMap

theorem ext_entries {β : Type} (m1 m2 : SMap β) (h : m1.entries = m2.entries) : m1 = m2 := by
  cases m1; cases m2
  simp only at h
  subst h
  rfl

theorem find?_empty {β : Type} (k : CString) : (SMap.empty : SMap β).find? k = none := rfl

theorem find?_insert_self {β : Type} (m : SMap β) (k : CString) (v : β) :
    (m.insert k v).find? k = some v := rawFind_insert_self k v m.entries

theorem find?_insert_ne {β : Type} (m : SMap β) (k k2 : CString) (v : β) (hne : k2 ≠ k) :
    (m.insert k v).find? k2 = m.find? k2 := rawFind_insert_ne k k2 v m.entries hne

theorem find?_insert {β : Type} (m : SMap β) (k k2 : CString) (v : β) :
    (m.insert k v).find? k2 = if k2 = k then some v else m.find? k2 := by
  split_ifs with h
  · subst h; exact find?_insert_self m k2 v
  · exact find?_insert_ne m k k2 v h

theorem find?_erase_self {β : Type} (m : SMap β) (k : CString) :
    (m.erase k).find? k = none := rawFind_erase_self k m.entries m.sorted

theorem find?_erase_ne {β : Type} (m : SMap β) (k k2 : CString) (hne : k2 ≠ k) :
    (m.erase k).find? k2 = m.find? k2 := rawFind_erase_ne k k2 m.entries hne

theorem find?_erase {β : Type} (m : SMap β) (k k2 : CString) :
    (m.erase k).find? k2 = if k2 = k then none else m.find? k2 := by
  split_ifs with h
  · subst h; exact find?_erase_self m k2
  · exact find?_erase_ne m k k2 h

theorem insert_insert {β : Type} (m : SMap β) (k : CString) (v w : β) :
    (m.insert k v).insert k w = m.insert k w :=
  ext_entries _ _ (rawInsert_insert k v w m.entries)

theorem erase_insert {β : Type} (m : SMap β) (k : CString) (v : β) :
    (m.insert k v).erase k = m.erase k :=
  ext_entries _ _ (rawErase_insert k v m.entries m.sorted)

theorem erase_of_find_none {β : Type} (m : SMap β) (k : CString) (h : m.find? k = none) :
    m.erase k = m :=
  ext_entries _ _ (rawErase_of_not_mem k m.entries h)

theorem subscript_snd {β : Type} (m : SMap β) (k : CString) (d : β) :
    (m.subscript k d).2 = (m.find? k).getD d := by
  unfold subscript
  cases h : m.find? k <;> simp

theorem subscript_fst_insert {β : Type} (m : SMap β) (k : CString) (d v : β) :
    (m.subscript k d).1.insert k v = m.insert k v := by
  unfold subscript
  cases h : m.find? k
  · simp only [insert_insert]
  · simp

theorem subscript_of_find {β : Type} (m : SMap β) (k : CString) (d v : β)
    (h : m.find? k = some v) : m.subscript k d = (m, v) := by
  unfold subscript
  simp [h]

theorem subscript_of_contains {β : Type} (m : SMap β) (k : CString) (d : β)
    (h : m.contains k = true) : (m.subscript k d).1 = m := by
  unfold contains at h
  cases hf : m.find? k with
  | none => simp [hf] at h
  | some v => rw [subscript_of_find m k d v hf]

theorem size_insert {β : Type} (m : SMap β) (k : CString) (v : β) :
    (m.insert k v).size = if m.contains k then m.size else m.size + 1 :=
  rawInsert_length k v m.entries m.sorted

theorem size_erase {β : Type} (m : SMap β) (k : CString) :
    (m.erase k).size + (if m.contains k then 1 else 0) = m.size :=
  rawErase_length k m.entries

theorem eq_empty_of_find_none {β : Type} (m : SMap β) (h : ∀ k, m.find? k = none) :
    m.entries = [] := rawFind_all_none m.entries h

end SMap

namespace SMap

theorem contains_insert {β : Type} (m : SMap β) (k k2 : CString) (v : β) :
    (m.insert k v).contains k2 = (decide (k2 = k) || m.contains k2) := by
  unfold contains
  rw [find?_insert]
  by_cases h : k2 = k <;> simp [h]

theorem contains_erase {β : Type} (m : SMap β) (k k2 : CString) :
    (m.erase k).contains k2 = (!decide (k2 = k) && m.contains k2) := by
  unfold contains
  rw [find?_erase]
  by_cases h : k2 = k <;> simp [h]

theorem contains_eq_false {β : Type} (m : SMap β) (k : CString) :
    m.contains k = false ↔ m.find? k = none := by
  unfold contains
  cases m.find? k <;> simp

theorem contains_eq_true {β : Type} (m : SMap β) (k : CString) :
    m.contains k = true ↔ ∃ v, m.find? k = some v := by
  unfold contains
  cases m.find? k <;> simp

end SMap

/-! ## Lemmas on `storeChunk`, `deleteChunk`, `getChunkContent` -/

theorem storeChunk_eq (s : StorageSystem) (k c : CString) :
    storeChunk s k c =
      if s.storage.contains k then
        ({ s with refCount := s.refCount.insert k ((s.refCount.find? k).getD 0 + 1) }, false)
      else
        ({ s with storage := s.storage.insert k c, refCount := s.refCount.insert k 1 }, true) := by
  unfold storeChunk
  simp only [SMap.subscript_fst_insert, SMap.subscript_snd]

theorem deleteChunk_eq (s : StorageSystem) (k : CString) :
    deleteChunk s k =
      if s.storage.contains k then
        if (s.refCount.find? k).getD 0 - 1 ≤ 0 then
          { s with storage := s.storage.erase k, refCount := s.refCount.erase k }
        else { s with refCount := s.refCount.insert k ((s.refCount.find? k).getD 0 - 1) }
      else s := by
  unfold deleteChunk
  simp only [SMap.subscript_fst_insert, SMap.subscript_snd]
  have h := SMap.subscript_of_find (s.refCount.insert k ((s.refCount.find? k).getD 0 - 1)) k 0
    ((s.refCount.find? k).getD 0 - 1) (SMap.find?_insert_self _ _ _)
  simp only [h, SMap.find?_insert_self, Option.getD_some, SMap.erase_insert]

theorem getChunkContent_eq (s : StorageSystem) (k : CString) :
    getChunkContent s k = (s, (s.storage.find? k).getD []) := by
  unfold getChunkContent
  by_cases h : s.storage.contains k = true
  · simp only [h, if_true, SMap.subscript_of_contains _ _ _ h, SMap.subscript_snd]
  · have h0 : s.storage.contains k = false := by simpa using h
    have hn := (SMap.contains_eq_false _ _).1 h0
    simp [h0, hn]

theorem storeChunk_chunkSize (s : StorageSystem) (k c : CString) :
    (storeChunk s k c).1.chunkSize = s.chunkSize := by
  rw [storeChunk_eq]; split_ifs <;> rfl

theorem storeChunk_inv (s : StorageSystem) (k c : CString) (h : StoreInv s) :
    StoreInv (storeChunk s k c).1 := by
  intro k2
  rw [storeChunk_eq]
  by_cases hc : s.storage.contains k = true
  · simp only [hc, if_true]
    obtain ⟨v, hv⟩ := (SMap.contains_eq_true _ _).1 ((h k).1.1 hc)
    refine ⟨?_, ?_⟩
    · rw [SMap.contains_insert]
      by_cases e : k2 = k
      · subst e; simp [hc]
      · simp only [e, decide_False, Bool.false_or]; exact (h k2).1
    · intro n hn
      rw [SMap.find?_insert] at hn
      split_ifs at hn with e
      · have := (h k).2 v hv
        simp only [hv, Option.getD_some, Option.some.injEq] at hn
        omega
      · exact (h k2).2 n hn
  · have hc0 : s.storage.contains k = false := by simpa using hc
    simp only [hc0, Bool.false_eq_true, if_false]
    refine ⟨?_, ?_⟩
    · rw [SMap.contains_insert, SMap.contains_insert]
      by_cases e : k2 = k
      · simp [e]
      · simp only [e, decide_False, Bool.false_or]; exact (h k2).1
    · intro n hn
      rw [SMap.find?_insert] at hn
      split_ifs at hn with e
      · simp only [Option.some.injEq] at hn; omega
      · exact (h k2).2 n hn

theorem deleteChunk_inv (s : StorageSystem) (k : CString) (h : StoreInv s) :
    StoreInv (deleteChunk s k) := by
  intro k2
  rw [deleteChunk_eq]
  by_cases hc : s.storage.contains k = true
  · simp only [hc, if_true]
    by_cases hz : (s.refCount.find? k).getD 0 - 1 ≤ 0
    · simp only [hz, if_true]
      refine ⟨?_, ?_⟩
      · rw [SMap.contains_erase, SMap.contains_erase]
        by_cases e : k2 = k
        · simp [e]
        · simp only [e, decide_False, Bool.not_false, Bool.true_and]; exact (h k2).1
      · intro n hn
        rw [SMap.find?_erase] at hn
        split_ifs at hn with e
        exact (h k2).2 n hn
    · simp only [hz, if_false]
      refine ⟨?_, ?_⟩
      · rw [SMap.contains_insert]
        by_cases e : k2 = k
        · subst e; simp [hc]
        · simp only [e, decide_False, Bool.false_or]; exact (h k2).1
      · intro n hn
        rw [SMap.find?_insert] at hn
        split_ifs at hn with e
        · simp only [Option.some.injEq] at hn; omega
        · exact (h k2).2 n hn
  · have hc0 : s.storage.contains k = false := by simpa using hc
    simp only [hc0, Bool.false_eq_true, if_false]
    exact h k2

theorem init_inv (chunkSz : Int) : StoreInv (StorageSystem.init chunkSz) := by
  intro k
  refine ⟨Iff.rfl, ?_⟩
  intro n hn
  simp [StorageSystem.init, SMap.find?_empty] at hn

theorem nChunks_lt_iff (S len j : Nat) (hS : 0 < S) : j < nChunks S len ↔ j * S < len := by
  unfold nChunks
  rw [Nat.lt_iff_add_one_le, Nat.le_div_iff_mul_le hS, Nat.add_mul]
  omega

theorem nChunks_le (S len : Nat) (hS : 0 < S) : nChunks S len ≤ len := by
  by_contra h
  have h1 : len < nChunks S len := by omega
  have h2 := (nChunks_lt_iff S len len hS).1 h1
  have h3 : len * 1 ≤ len * S := Nat.mul_le_mul_left len hS
  omega

theorem nChunks_mul_ge (S len : Nat) (hS : 0 < S) : len ≤ nChunks S len * S := by
  by_contra h
  have h1 : nChunks S len * S < len := by omega
  have h2 := (nChunks_lt_iff S len (nChunks S len) hS).2 h1
  omega

theorem nChunks_mul_lt (S len : Nat) (hS : 0 < S) : nChunks S len * S < len + S := by
  by_contra h
  have h0 : 0 < nChunks S len := by
    rcases Nat.eq_zero_or_pos (nChunks S len) with h0 | h0
    · rw [h0] at h; omega
    · exact h0
  have h1 : (nChunks S len - 1) * S + S = nChunks S len * S := by
    have : nChunks S len = (nChunks S len - 1) + 1 := by omega
    nth_rewrite 2 [this]
    rw [Nat.add_mul, Nat.one_mul]
  have h2 : ¬ ((nChunks S len - 1) * S < len) := by omega
  rw [← nChunks_lt_iff S len _ hS] at h2
  omega

theorem nChunks_zero (S : Nat) (hS : 0 < S) : nChunks S 0 = 0 := by
  unfold nChunks
  exact Nat.div_eq_of_lt (by omega)

theorem wrapInt_eq (v : Int) :
    wrapInt v = (v + 2147483648) % 4294967296 - 2147483648 := by
  unfold wrapInt
  simp only []
  split_ifs <;> omega

theorem wrapInt_of_range (v : Int) (h1 : -2147483648 ≤ v) (h2 : v ≤ 2147483647) :
    wrapInt v = v := by
  rw [wrapInt_eq]
  omega

theorem intLength_le (content : CString) : intLength content ≤ content.length := by
  unfold intLength
  rw [wrapInt_eq]
  omega

theorem intLength_of_le (content : CString) (h : content.length ≤ 2147483647) :
    intLength content = content.length := by
  unfold intLength
  rw [wrapInt_eq]
  omega

theorem intLength_in_range (S : Nat) (hS : 0 < S) (content : CString)
    (hb : nChunks S content.length * S ≤ 2147483647) :
    intLength content = content.length :=
  intLength_of_le content (le_trans (nChunks_mul_ge S content.length hS) hb)

theorem toSizeT_natCast (n : Nat) : toSizeT (n : Int) = n := by
  unfold toSizeT
  have h : ¬ ((n : Int) < 0) := by omega
  simp [h]

theorem substr_segment (S T : Nat) (content : CString) (j : Nat) (hT : T ≤ content.length)
    (h : j * S < T) :
    substr content ((j * S : Nat) : Int)
      (min (S : Int) ((T : Int) - ((j * S : Nat) : Int))) =
      some (segment S (content.take T) j) := by
  have hmin : min (S : Int) ((T : Int) - ((j * S : Nat) : Int)) =
      ((min S (T - j * S) : Nat) : Int) := by
    omega
  rw [hmin]
  unfold substr segment
  rw [toSizeT_natCast, toSizeT_natCast]
  have h1 : ¬ (j * S > content.length) := by omega
  simp only [h1, if_false, Option.some.injEq]
  rw [List.drop_take, List.take_take]

theorem splitLoopLog_closed (S : Nat) (hS : 0 < S) (content : CString) (T : Nat)
    (hT : T ≤ content.length) (hb : nChunks S T * S ≤ 2147483647) :
    ∀ (k j fuel : Nat) (s : StorageSystem) (chunks : List Chunk) (log : List Bool),
      s.chunkSize = (S : Int) → j + k = nChunks S T → k < fuel →
      splitLoopLog content (T : Int) fuel s ((j * S : Nat) : Int) (j : Int) chunks log =
        Outcome.ret (storeAll s ((List.range' j k).map (segment S (content.take T))),
          chunks ++ (List.range' j k).map (chunkAt S (content.take T)),
          log ++ storeLog s ((List.range' j k).map (segment S (content.take T)))) := by
  intro k
  induction k with
  | zero =>
    intro j fuel s chunks log _ hj hf
    obtain ⟨f, rfl⟩ : ∃ f, fuel = f + 1 := ⟨fuel - 1, by omega⟩
    have hnot : ¬ (j * S < T) := by
      rw [← nChunks_lt_iff S T j hS]; omega
    have hnot' : ¬ (((j * S : Nat) : Int) < (T : Int)) := by omega
    simp only [splitLoopLog, hnot', if_false, List.range', List.map_nil, storeAll, storeLog,
      List.append_nil]
  | succ k ih =>
    intro j fuel s chunks log hs hj hf
    obtain ⟨f, rfl⟩ : ∃ f, fuel = f + 1 := ⟨fuel - 1, by omega⟩
    have hlt : j * S < T := by
      rw [← nChunks_lt_iff S T j hS]; omega
    have hlt' : ((j * S : Nat) : Int) < (T : Int) := by omega
    have hj2 : j + 1 + k = nChunks S T := by omega
    have hf2 : k < f := by omega
    have hTb : T ≤ 2147483647 := le_trans (nChunks_mul_ge S T hS) hb
    have hjS : (j + 1) * S ≤ 2147483647 :=
      le_trans (Nat.mul_le_mul_right S (by omega : j + 1 ≤ nChunks S T)) hb
    have hj1 : j + 1 ≤ (j + 1) * S := Nat.le_mul_of_pos_right _ hS
    have hrest : wrapInt ((T : Int) - ((j * S : Nat) : Int)) =
        (T : Int) - ((j * S : Nat) : Int) := wrapInt_of_range _ (by omega) (by omega)
    have hlow : ∀ n : Nat, (-2147483648 : Int) ≤ (n : Int) := fun n =>
      le_trans (by norm_num) (Int.natCast_nonneg n)
    have hnext : wrapInt (((j * S : Nat) : Int) + (S : Int)) = (((j + 1) * S : Nat) : Int) := by
      have e : ((j * S : Nat) : Int) + (S : Int) = (((j + 1) * S : Nat) : Int) := by
        push_cast; ring
      rw [e]
      exact wrapInt_of_range _ (hlow _) (by exact_mod_cast hjS)
    have hidx : wrapInt ((j : Int) + 1) = ((j + 1 : Nat) : Int) := by
      have e : (j : Int) + 1 = ((j + 1 : Nat) : Int) := by push_cast; ring
      rw [e]
      exact wrapInt_of_range _ (hlow _) (by exact_mod_cast le_trans hj1 hjS)
    have hlenT : (List.take T content).length = T := by
      rw [List.length_take]; exact min_eq_left hT
    simp only [splitLoopLog, hlt', if_true, hs, hrest, substr_segment S T content j hT hlt]
    rw [hnext, hidx]
    rw [ih (j + 1) f _ _ _ (by rw [storeChunk_chunkSize]; exact hs) hj2 hf2]
    simp only [List.range'_succ, List.map_cons, storeAll, storeLog, List.append_assoc,
      List.singleton_append, chunkAt, hlenT]

theorem splitLoop_of_log (content : CString) (totalSize : Int) :
    ∀ (fuel : Nat) (s : StorageSystem) (i index : Int) (chunks : List Chunk) (log : List Bool)
      (s' : StorageSystem) (cs : List Chunk) (lg : List Bool),
      splitLoopLog content totalSize fuel s i index chunks log = Outcome.ret (s', cs, lg) →
      splitLoop content totalSize fuel s i index chunks = Outcome.ret (s', cs) := by
  intro fuel
  induction fuel with
  | zero => intro s i index chunks log s' cs lg h; simp [splitLoopLog] at h
  | succ f ih =>
    intro s i index chunks log s' cs lg h
    simp only [splitLoopLog] at h
    simp only [splitLoop]
    split_ifs at h ⊢ with hlt
    · cases hsub : substr content i (min s.chunkSize (wrapInt (totalSize - i))) with
      | none => simp [hsub] at h
      | some cc =>
        simp only [hsub] at h ⊢
        exact ih _ _ _ _ _ _ _ _ h
    · simp only [Outcome.ret.injEq, Prod.mk.injEq] at h ⊢
      exact ⟨h.1, h.2.1⟩

/-- The loop in closed form: `splitIntoChunks` treats the first `intLength content`
bytes of its argument, provided the counter `i` stays in the range of `int`. -/
theorem splitIntoChunksLog_take (S : Nat) (hS : 0 < S) (s : StorageSystem)
    (hs : s.chunkSize = (S : Int)) (content : CString)
    (hb : nChunks S (intLength content) * S ≤ 2147483647) :
    splitIntoChunksLog s content =
      Outcome.ret (storeAll s (segments S (content.take (intLength content))),
        chunksOf S (content.take (intLength content)),
        storeLog s (segments S (content.take (intLength content)))) := by
  have hT := intLength_le content
  have hlenT : (List.take (intLength content) content).length = intLength content := by
    rw [List.length_take]; exact min_eq_left hT
  have hfuel : nChunks S (intLength content) < content.length + 1 := by
    have := nChunks_le S (intLength content) hS
    omega
  unfold splitIntoChunksLog
  by_cases hneg : wrapInt (content.length : Int) < 0
  · have h0 : intLength content = 0 := Int.toNat_eq_zero.2 (le_of_lt hneg)
    have hnot : ¬ ((0 : Int) < wrapInt (content.length : Int)) := not_lt.2 (le_of_lt hneg)
    have hseg : segments S (List.take (intLength content) content) = [] := by
      unfold segments
      rw [hlenT, h0, nChunks_zero S hS]
      rfl
    have hchunks : chunksOf S (List.take (intLength content) content) = [] := by
      unfold chunksOf
      rw [hlenT, h0, nChunks_zero S hS]
      rfl
    rw [hseg, hchunks, splitLoopLog, if_neg hnot]
    rfl
  · have hw : wrapInt (content.length : Int) = ((intLength content : Nat) : Int) :=
      (Int.toNat_of_nonneg (not_lt.1 hneg)).symm
    rw [hw]
    have h := splitLoopLog_closed S hS content (intLength content) hT hb
      (nChunks S (intLength content)) 0 (content.length + 1) s [] [] hs (Nat.zero_add _)
      hfuel
    simp only [Nat.zero_mul, Nat.cast_zero, List.nil_append] at h
    rw [h, segments, chunksOf, hlenT, List.range_eq_range']

theorem splitIntoChunks_take (S : Nat) (hS : 0 < S) (s : StorageSystem)
    (hs : s.chunkSize = (S : Int)) (content : CString)
    (hb : nChunks S (intLength content) * S ≤ 2147483647) :
    splitIntoChunks s content =
      Outcome.ret (storeAll s (segments S (content.take (intLength content))),
        chunksOf S (content.take (intLength content))) := by
  unfold splitIntoChunks
  exact splitLoop_of_log content _ _ s 0 0 [] [] _ _ _
    (splitIntoChunksLog_take S hS s hs content hb)

theorem splitIntoChunksLog_eq (S : Nat) (hS : 0 < S) (s : StorageSystem)
    (hs : s.chunkSize = (S : Int)) (content : CString)
    (hb : nChunks S content.length * S ≤ 2147483647) :
    splitIntoChunksLog s content =
      Outcome.ret (storeAll s (segments S content), chunksOf S content,
        storeLog s (segments S content)) := by
  have hT := intLength_in_range S hS content hb
  have h := splitIntoChunksLog_take S hS s hs content (by rw [hT]; exact hb)
  rw [hT, List.take_length] at h
  exact h

theorem splitIntoChunks_eq (S : Nat) (hS : 0 < S) (s : StorageSystem)
    (hs : s.chunkSize = (S : Int)) (content : CString)
    (hb : nChunks S content.length * S ≤ 2147483647) :
    splitIntoChunks s content =
      Outcome.ret (storeAll s (segments S content), chunksOf S content) := by
  have hT := intLength_in_range S hS content hb
  have h := splitIntoChunks_take S hS s hs content (by rw [hT]; exact hb)
  rw [hT, List.take_length] at h
  exact h

theorem segments_nil (S : Nat) (hS : 0 < S) : segments S [] = [] := by
  unfold segments
  rw [List.length_nil, nChunks_zero S hS]
  rfl

theorem chunksOf_nil (S : Nat) (hS : 0 < S) : chunksOf S [] = [] := by
  unfold chunksOf
  rw [List.length_nil, nChunks_zero S hS]
  rfl

/-- A content whose length is zero or negative once held in `int totalSize` is
not chunked at all. -/
theorem splitIntoChunks_none (S : Nat) (hS : 0 < S) (s : StorageSystem)
    (hs : s.chunkSize = (S : Int)) (content : CString) (h0 : intLength content = 0) :
    splitIntoChunks s content = Outcome.ret (s, []) := by
  have h := splitIntoChunks_take S hS s hs content
    (by rw [h0, nChunks_zero S hS, Nat.zero_mul]; exact Nat.zero_le _)
  rw [h0, List.take_zero, segments_nil S hS, chunksOf_nil S hS] at h
  exact h

theorem intLength_replicate (n : Nat) (c : CChar) :
    intLength (List.replicate n c) = (wrapInt (n : Int)).toNat := by
  unfold intLength
  rw [List.length_replicate]

theorem splitLoop_step (content : CString) (totalSize : Int) (fuel : Nat) (s : StorageSystem)
    (i index : Int) (chunks : List Chunk) (cc : CString) (hlt : i < totalSize)
    (hsub : substr content i (min s.chunkSize (wrapInt (totalSize - i))) = some cc) :
    splitLoop content totalSize (fuel + 1) s i index chunks =
      splitLoop content totalSize fuel (storeChunk s (simpleHash cc) cc).1
        (wrapInt (i + s.chunkSize)) (wrapInt (index + 1))
        (chunks ++ [{ chunkHash := simpleHash cc, chunkIndex := index,
                      chunkSize := min s.chunkSize (wrapInt (totalSize - i)) }]) := by
  rw [splitLoop, if_pos hlt]
  simp only [hsub]

theorem splitLoop_throw (content : CString) (totalSize : Int) (fuel : Nat) (s : StorageSystem)
    (i index : Int) (chunks : List Chunk) (hlt : i < totalSize)
    (hsub : substr content i (min s.chunkSize (wrapInt (totalSize - i))) = none) :
    splitLoop content totalSize (fuel + 1) s i index chunks = Outcome.outOfRange := by
  rw [splitLoop, if_pos hlt]
  simp only [hsub]

theorem substr_inside (content : CString) (pos count : Int) (h0 : 0 ≤ pos)
    (h : pos ≤ (content.length : Int)) :
    substr content pos count =
      some ((content.drop (toSizeT pos)).take (toSizeT count)) := by
  unfold substr
  have h1 : ¬ (toSizeT pos > content.length) := by
    unfold toSizeT
    rw [if_neg (not_lt.2 h0)]
    omega
  rw [if_neg h1]

theorem substr_negative (content : CString) (pos count : Int) (hneg : pos < 0)
    (hlow : -2147483648 ≤ pos) (hlen : content.length ≤ 2147483647) :
    substr content pos count = none := by
  unfold substr
  have h1 : toSizeT pos > content.length := by
    unfold toSizeT
    rw [if_pos hneg]
    omega
  rw [if_pos h1]

/-- A run in which the counter `i` leaves the range of `int`: at chunk size
`2^30 + 1` a content of `2^30 + 2` bytes is cut into two chunks, the third
`i += chunkSize` wraps to a negative position and `substr` throws. -/
theorem splitIntoChunks_overflow (s : StorageSystem) (hs : s.chunkSize = 1073741825) :
    splitIntoChunks s (List.replicate 1073741826 97) = Outcome.outOfRange := by
  have hlen : (List.replicate 1073741826 (97 : CChar)).length = 1073741826 :=
    List.length_replicate _ _
  have hT : wrapInt ((1073741826 : Nat) : Int) = 1073741826 := by
    rw [wrapInt_eq]; omega
  have hi1 : wrapInt (0 + 1073741825) = 1073741825 := by
    rw [wrapInt_eq]; omega
  have hi2 : wrapInt (1073741825 + 1073741825) = -2147483646 := by
    rw [wrapInt_eq]; omega
  have hfuel : (1073741826 + 1 : Nat) = 1073741824 + 1 + 1 + 1 := by norm_num
  unfold splitIntoChunks
  rw [hlen, hT, hfuel]
  rw [splitLoop_step _ _ _ _ _ _ _ _ (by norm_num)
    (substr_inside _ _ _ (le_refl _) (by rw [hlen]; norm_num))]
  simp only [storeChunk_chunkSize, hs, hi1]
  rw [splitLoop_step _ _ _ _ _ _ _ _ (by norm_num)
    (substr_inside _ _ _ (by norm_num) (by rw [hlen]; norm_num))]
  simp only [storeChunk_chunkSize, hs, hi2]
  exact splitLoop_throw _ _ _ _ _ _ _ (by norm_num)
    (substr_negative _ _ _ (by norm_num) (by norm_num) (by rw [hlen]; norm_num))

theorem replicate_ne_nil (n : Nat) (c : CChar) (hn : 0 < n) : List.replicate n c ≠ [] := by
  intro h
  have h2 := congrArg List.length h
  rw [List.length_replicate, List.length_nil] at h2
  omega

/-! ## Segments and chunk records -/

theorem segments_flatten_take (S : Nat) (content : CString) (k : Nat) :
    ((List.range k).map (segment S content)).flatten = content.take (k * S) := by
  induction k with
  | zero => simp
  | succ k ih =>
    rw [List.range_succ, List.map_append, List.flatten_append, ih, Nat.succ_mul, List.take_add]
    simp [segment]

theorem segments_flatten (S : Nat) (hS : 0 < S) (content : CString) :
    (segments S content).flatten = content := by
  unfold segments
  rw [segments_flatten_take]
  exact List.take_of_length_le (nChunks_mul_ge S content.length hS)

theorem segment_length (S : Nat) (content : CString) (j : Nat) :
    (segment S content j).length = min S (content.length - j * S) := by
  simp [segment, List.length_take, List.length_drop]

theorem chunkAt_chunkSize (S : Nat) (content : CString) (j : Nat)
    (h : j * S < content.length) :
    (chunkAt S content j).chunkSize = ((segment S content j).length : Int) := by
  rw [segment_length]
  simp only [chunkAt]
  omega

theorem chunksOf_length (S : Nat) (content : CString) :
    (chunksOf S content).length = nChunks S content.length := by
  simp [chunksOf]

theorem chunksOf_getElem? (S : Nat) (content : CString) (i : Nat) (c : Chunk)
    (h : (chunksOf S content)[i]? = some c) :
    i < nChunks S content.length ∧ c = chunkAt S content i := by
  unfold chunksOf at h
  rw [List.getElem?_map] at h
  by_cases hi : i < nChunks S content.length
  · rw [List.getElem?_range hi] at h
    simp only [Option.map_some', Option.some.injEq] at h
    exact ⟨hi, h.symm⟩
  · rw [List.getElem?_eq_none (by simpa using hi)] at h
    simp at h

theorem chunksOf_getElem?_lt (S : Nat) (content : CString) (i : Nat)
    (hi : i < nChunks S content.length) :
    (chunksOf S content)[i]? = some (chunkAt S content i) := by
  unfold chunksOf
  rw [List.getElem?_map, List.getElem?_range hi]
  rfl

theorem chunksOf_map_hash (S : Nat) (content : CString) :
    (chunksOf S content).map (fun c => c.chunkHash) = (segments S content).map simpleHash := by
  simp [chunksOf, segments, chunkAt, Function.comp_def]

theorem chunksOf_sizes_sum (S : Nat) (hS : 0 < S) (content : CString) :
    ((chunksOf S content).map (fun c => c.chunkSize)).sum = (content.length : Int) := by
  have h1 : (chunksOf S content).map (fun c => c.chunkSize) =
      (segments S content).map (fun x => (x.length : Int)) := by
    unfold chunksOf segments
    rw [List.map_map, List.map_map]
    apply List.map_congr_left
    intro j hj
    have hj' := (nChunks_lt_iff S content.length j hS).1 (List.mem_range.1 hj)
    exact chunkAt_chunkSize S content j hj'
  have h2 : ((segments S content).map (fun x => (x.length : Int))).sum =
      (((segments S content).map List.length).sum : Nat) := by
    generalize segments S content = l
    induction l with
    | nil => simp
    | cons x xs ih => simp only [List.map_cons, List.sum_cons, ih]; push_cast; ring
  rw [h1, h2, ← List.length_flatten, segments_flatten S hS]

/-! ## Claims on the chunker -/

/-- C7 as stated fails on a content too long for `int`: at chunk size `2^30` a
content of `2^31` bytes gives `totalSize = -2^31`, the loop body never runs and
the list returned is empty, where the claim asks for `ceil(len / S) = 2` chunks. -/
theorem splitIntoChunks_partition_counterexample :
    splitIntoChunks (StorageSystem.init 1073741824) (List.replicate 2147483648 97) =
      Outcome.ret (StorageSystem.init 1073741824, []) ∧
    ((List.replicate 2147483648 (97 : CChar)).length + 1073741824 - 1) / 1073741824 = 2 ∧
    ¬ ∃ (s' : StorageSystem) (chunks : List Chunk),
      splitIntoChunks (StorageSystem.init 1073741824) (List.replicate 2147483648 97) =
        Outcome.ret (s', chunks) ∧
      chunks.length =
        ((List.replicate 2147483648 (97 : CChar)).length + 1073741824 - 1) / 1073741824 := by
  have h0 : intLength (List.replicate 2147483648 (97 : CChar)) = 0 := by
    rw [intLength_replicate, wrapInt_eq]
    omega
  have hrun := splitIntoChunks_none 1073741824 (by norm_num) (StorageSystem.init 1073741824)
    rfl (List.replicate 2147483648 97) h0
  have hn : ((List.replicate 2147483648 (97 : CChar)).length + 1073741824 - 1) / 1073741824
      = 2 := by
    rw [List.length_replicate]
  refine ⟨hrun, hn, ?_⟩
  rintro ⟨s', chunks, h1, h2⟩
  rw [hrun] at h1
  rw [hn] at h2
  simp only [Outcome.ret.injEq, Prod.mk.injEq] at h1
  rw [← h1.2] at h2
  simp at h2

/-- C7. Chunker partition: for a chunk size `S ≥ 1` and a content whose chunking
stays in the range of `int` (`ceil(len / S) * S ≤ 2^31 - 1`), `splitIntoChunks`
returns `ceil(len / S)` chunks (none for an empty content); every chunk but the
last has `chunkSize = S`, the last has `chunkSize = len - S * (n - 1)`, between `1`
and `S`; the chunk sizes add up to `len`, and the segments
`content[i*S, i*S + chunkSize_i)` concatenated in order give the content back. -/
theorem splitIntoChunks_partition (s : StorageSystem) (S : Nat) (content : CString)
    (hS : 1 ≤ S) (hs : s.chunkSize = (S : Int))
    (hb : (content.length + S - 1) / S * S ≤ 2147483647) :
    ∃ (s' : StorageSystem) (chunks : List Chunk), splitIntoChunks s content = Outcome.ret (s', chunks) ∧
      chunks.length = (content.length + S - 1) / S ∧
      (content.length ≤ chunks.length * S ∧ chunks.length * S < content.length + S) ∧
      (content = [] → chunks = []) ∧
      (∀ (i : Nat) (c : Chunk), i + 1 < chunks.length → chunks[i]? = some c → c.chunkSize = (S : Int)) ∧
      (∀ c : Chunk, chunks.getLast? = some c →
        c.chunkSize = (content.length : Int) - (S : Int) * ((chunks.length : Int) - 1) ∧
        1 ≤ c.chunkSize ∧ c.chunkSize ≤ (S : Int)) ∧
      (chunks.map (fun c : Chunk => c.chunkSize)).sum = (content.length : Int) ∧
      ((List.range chunks.length).map (fun i =>
        (content.drop (i * S)).take
          ((chunks[i]?.map (fun c : Chunk => c.chunkSize)).getD 0).toNat)).flatten = content := by
  have hS0 : 0 < S := hS
  refine ⟨_, _, splitIntoChunks_eq S hS0 s hs content hb, ?_, ?_, ?_, ?_, ?_, ?_, ?_⟩
  · rw [chunksOf_length]; rfl
  · rw [chunksOf_length]
    refine ⟨nChunks_mul_ge S content.length hS0, ?_⟩
    by_contra hc
    have h1 : (nChunks S content.length - 1) < nChunks S content.length := by
      have : 0 < nChunks S content.length := by
        by_contra h0
        have : nChunks S content.length = 0 := by omega
        rw [this] at hc; omega
      omega
    have h2 := (nChunks_lt_iff S content.length _ hS0).1 h1
    have h3 : nChunks S content.length * S = (nChunks S content.length - 1) * S + S := by
      have : nChunks S content.length = (nChunks S content.length - 1) + 1 := by omega
      conv_lhs => rw [this, Nat.add_mul, Nat.one_mul]
    omega
  · intro he
    have h0 : (chunksOf S content).length = 0 := by
      rw [chunksOf_length]
      have := nChunks_le S content.length hS0
      simp only [he, List.length_nil] at this
      simp only [he, List.length_nil]
      omega
    exact List.length_eq_zero.1 h0
  · intro i c hi hc
    rw [chunksOf_length] at hi
    obtain ⟨_, rfl⟩ := chunksOf_getElem? S content i c hc
    have h2 := (nChunks_lt_iff S content.length (i + 1) hS0).1 hi
    rw [Nat.add_mul, Nat.one_mul] at h2
    simp only [chunkAt]
    omega
  · intro c hc
    rw [List.getLast?_eq_getElem?] at hc
    obtain ⟨hlt, rfl⟩ := chunksOf_getElem? S content _ c hc
    rw [chunksOf_length] at hlt ⊢
    have hpos : 0 < nChunks S content.length := by
      by_contra h0
      have h00 : nChunks S content.length = 0 := by omega
      rw [h00] at hlt; omega
    have h2 := (nChunks_lt_iff S content.length _ hS0).1 hlt
    have h3 := nChunks_mul_ge S content.length hS0
    have h4 : nChunks S content.length * S = (nChunks S content.length - 1) * S + S := by
      have : nChunks S content.length = (nChunks S content.length - 1) + 1 := by omega
      conv_lhs => rw [this, Nat.add_mul, Nat.one_mul]
    have h5 : (S : Int) * ((nChunks S content.length : Int) - 1) =
        (((nChunks S content.length - 1) * S : Nat) : Int) := by
      push_cast [Nat.cast_sub hpos]
      ring
    simp only [chunkAt]
    rw [h5]
    omega
  · exact chunksOf_sizes_sum S hS0 content
  · have hseg : (List.range (chunksOf S content).length).map (fun i =>
        (content.drop (i * S)).take
          (((chunksOf S content)[i]?.map (fun c : Chunk => c.chunkSize)).getD 0).toNat) =
        segments S content := by
      rw [chunksOf_length]
      unfold segments
      apply List.map_congr_left
      intro j hj
      have hj1 := List.mem_range.1 hj
      have hj2 := (nChunks_lt_iff S content.length j hS0).1 hj1
      rw [chunksOf_getElem?_lt S content j hj1]
      simp only [Option.map_some', Option.getD_some, chunkAt_chunkSize S content j hj2,
        Int.toNat_ofNat, segment_length]
      unfold segment
      have hlen : (List.drop (j * S) content).length = content.length - j * S :=
        List.length_drop _ _
      rw [← hlen, ← List.take_take, List.take_length]
    rw [hseg]
    exact segments_flatten S hS0 content

/-- C7, at chunk size 2 and a content of three bytes. -/
theorem splitIntoChunks_partition_witness :
    ∃ (s' : StorageSystem) (chunks : List Chunk), splitIntoChunks (StorageSystem.init 2) [97, 98, 99] = Outcome.ret (s', chunks) ∧
      chunks.length = (([97, 98, 99] : CString).length + 2 - 1) / 2 ∧
      (([97, 98, 99] : CString).length ≤ chunks.length * 2 ∧
        chunks.length * 2 < ([97, 98, 99] : CString).length + 2) ∧
      (([97, 98, 99] : CString) = [] → chunks = []) ∧
      (∀ (i : Nat) (c : Chunk), i + 1 < chunks.length → chunks[i]? = some c → c.chunkSize = ((2 : Nat) : Int)) ∧
      (∀ c : Chunk, chunks.getLast? = some c →
        c.chunkSize = (([97, 98, 99] : CString).length : Int) -
          ((2 : Nat) : Int) * ((chunks.length : Int) - 1) ∧
        1 ≤ c.chunkSize ∧ c.chunkSize ≤ ((2 : Nat) : Int)) ∧
      (chunks.map (fun c : Chunk => c.chunkSize)).sum = (([97, 98, 99] : CString).length : Int) ∧
      ((List.range chunks.length).map (fun i =>
        (([97, 98, 99] : CString).drop (i * 2)).take
          ((chunks[i]?.map (fun c : Chunk => c.chunkSize)).getD 0).toNat)).flatten = [97, 98, 99] :=
  splitIntoChunks_partition (StorageSystem.init 2) 2 [97, 98, 99] (by decide) rfl (by decide)

/-- C8 as stated fails on a content too long for `int`: at chunk size 2 a
content of `2^32 + 3` bytes `a` gives `totalSize = 3`, so the chunk of index 1 is
cut to one byte and carries the hash of `content[2, 3)`, not that of
`content[2, min(4, len)) = content[2, 4)`. -/
theorem splitIntoChunks_order_counterexample :
    ∃ (s' : StorageSystem) (chunks : List Chunk) (c : Chunk),
      splitIntoChunks (StorageSystem.init 2) (List.replicate 4294967299 97) =
        Outcome.ret (s', chunks) ∧
      chunks[1]? = some c ∧
      c.chunkHash = simpleHash [97] ∧
      simpleHash (((List.replicate 4294967299 (97 : CChar)).drop (1 * 2)).take
        (min ((1 + 1) * 2) (List.replicate 4294967299 (97 : CChar)).length - 1 * 2)) =
          simpleHash [97, 97] ∧
      simpleHash [97] ≠ simpleHash [97, 97] := by
  have h3 : intLength (List.replicate 4294967299 (97 : CChar)) = 3 := by
    rw [intLength_replicate, wrapInt_eq]
    omega
  have hrun := splitIntoChunks_take 2 (by decide) (StorageSystem.init 2) rfl
    (List.replicate 4294967299 97) (by rw [h3]; decide)
  have htake : List.take 3 (List.replicate 4294967299 (97 : CChar)) = [97, 97, 97] := by
    rw [List.take_replicate, min_eq_left (by norm_num : 3 ≤ 4294967299)]
    rfl
  rw [h3, htake] at hrun
  refine ⟨_, _, ⟨simpleHash [97], 1, 1⟩, hrun, by decide, rfl, ?_, by decide⟩
  rw [List.length_replicate, List.drop_replicate, List.take_replicate]
  have e : min (min ((1 + 1) * 2) 4294967299 - 1 * 2) (4294967299 - 1 * 2) = 2 := by
    norm_num
  rw [e]
  rfl

/-- C8. Manifest order: for a chunk size `S ≥ 1` and a content whose chunking
stays in the range of `int` (`ceil(len / S) * S ≤ 2^31 - 1`), the `i`-th chunk
returned by `splitIntoChunks` has `chunkIndex = i` and
`chunkHash = simpleHash(content[i*S, min((i+1)*S, len)))`, and the list returned
is the same whatever the store held before. -/
theorem splitIntoChunks_order (s t : StorageSystem) (S : Nat) (content : CString)
    (hS : 1 ≤ S) (hs : s.chunkSize = (S : Int)) (ht : t.chunkSize = (S : Int))
    (hb : (content.length + S - 1) / S * S ≤ 2147483647) :
    ∃ (s' t' : StorageSystem) (chunks : List Chunk), splitIntoChunks s content = Outcome.ret (s', chunks) ∧
      splitIntoChunks t content = Outcome.ret (t', chunks) ∧
      ∀ (i : Nat) (c : Chunk), chunks[i]? = some c →
        c.chunkIndex = (i : Int) ∧
        c.chunkHash = simpleHash
          ((content.drop (i * S)).take (min ((i + 1) * S) content.length - i * S)) := by
  have hS0 : 0 < S := hS
  refine ⟨_, _, _, splitIntoChunks_eq S hS0 s hs content hb,
    splitIntoChunks_eq S hS0 t ht content hb, ?_⟩
  intro i c hc
  obtain ⟨hlt, rfl⟩ := chunksOf_getElem? S content i c hc
  refine ⟨rfl, ?_⟩
  simp only [chunkAt, segment]
  have hlen : (List.drop (i * S) content).length = content.length - i * S :=
    List.length_drop _ _
  have hmin : min ((i + 1) * S) content.length - i * S = min S (content.length - i * S) := by
    rw [Nat.add_mul, Nat.one_mul]; omega
  rw [hmin, ← hlen, ← List.take_take, List.take_length]

/-- C8, at chunk size 2, on an empty store and on one that already holds a chunk. -/
theorem splitIntoChunks_order_witness :
    ∃ (s' t' : StorageSystem) (chunks : List Chunk),
      splitIntoChunks (StorageSystem.init 2) [97, 98, 99] = Outcome.ret (s', chunks) ∧
      splitIntoChunks (storeChunk (StorageSystem.init 2) [49] [120]).1 [97, 98, 99] =
        Outcome.ret (t', chunks) ∧
      ∀ (i : Nat) (c : Chunk), chunks[i]? = some c →
        c.chunkIndex = (i : Int) ∧
        c.chunkHash = simpleHash
          ((([97, 98, 99] : CString).drop (i * 2)).take
            (min ((i + 1) * 2) ([97, 98, 99] : CString).length - i * 2)) :=
  splitIntoChunks_order (StorageSystem.init 2) (storeChunk (StorageSystem.init 2) [49] [120]).1
    2 [97, 98, 99] (by decide) rfl rfl (by decide)

/-! ## Claims on the chunk store -/

/-- C4. Postcondition of `deleteChunk(key)` on a store whose two maps are
consistent: a count `n > 1` becomes `n - 1` and the payload stays; a count of 1
removes the record from `storage` and from `refCount`; with `key` absent the
store is unchanged; afterwards no recorded count is zero or negative, and no
other key is touched. -/
theorem deleteChunk_postcondition (s : StorageSystem) (key : CString)
    (hinv : ∀ k : CString, (s.storage.contains k = true ↔ s.refCount.contains k = true) ∧
      ∀ n : Int, s.refCount.find? k = some n → 0 < n) :
    (∀ n : Int, s.refCount.find? key = some n → 1 < n →
      (deleteChunk s key).refCount.find? key = some (n - 1) ∧
      (deleteChunk s key).storage.find? key = s.storage.find? key ∧
      (deleteChunk s key).storage.contains key = true) ∧
    (s.refCount.find? key = some 1 →
      (deleteChunk s key).storage.find? key = none ∧
      (deleteChunk s key).refCount.find? key = none) ∧
    (s.storage.contains key = false → deleteChunk s key = s) ∧
    (∀ (k : CString) (n : Int), (deleteChunk s key).refCount.find? k = some n → 0 < n) ∧
    (∀ k2 : CString, k2 ≠ key →
      (deleteChunk s key).storage.find? k2 = s.storage.find? k2 ∧
      (deleteChunk s key).refCount.find? k2 = s.refCount.find? k2) := by
  refine ⟨?_, ?_, ?_, ?_, ?_⟩
  · intro n hn h1
    have hc : s.storage.contains key = true :=
      (hinv key).1.2 ((SMap.contains_eq_true _ _).2 ⟨n, hn⟩)
    have hz : ¬ (n - 1 ≤ 0) := by omega
    rw [deleteChunk_eq]
    simp only [hc, if_true, hn, Option.getD_some, hz, if_false, SMap.find?_insert_self,
      and_self]
  · intro hn
    have hc : s.storage.contains key = true :=
      (hinv key).1.2 ((SMap.contains_eq_true _ _).2 ⟨1, hn⟩)
    rw [deleteChunk_eq]
    simp only [hc, if_true, hn, Option.getD_some, sub_self, le_refl, SMap.find?_erase_self,
      and_self]
  · intro hc
    rw [deleteChunk_eq]
    simp only [hc, Bool.false_eq_true, if_false]
  · intro k n hn
    exact (deleteChunk_inv s key hinv k).2 n hn
  · intro k2 hne
    rw [deleteChunk_eq]
    split_ifs with h1 h2
    · exact ⟨SMap.find?_erase_ne _ _ _ hne, SMap.find?_erase_ne _ _ _ hne⟩
    · exact ⟨rfl, SMap.find?_insert_ne _ _ _ _ hne⟩
    · exact ⟨rfl, rfl⟩

/-- C4, on the store that holds one chunk with count 1: releasing it removes the record. -/
theorem deleteChunk_postcondition_witness :
    (deleteChunk (storeChunk (StorageSystem.init 50) [49] [120]).1 [49]).storage.find? [49]
        = none ∧
    (deleteChunk (storeChunk (StorageSystem.init 50) [49] [120]).1 [49]).refCount.find? [49]
        = none :=
  (deleteChunk_postcondition (storeChunk (StorageSystem.init 50) [49] [120]).1 [49]
    (storeChunk_inv _ _ _ (init_inv 50))).2.1 (by decide)

theorem reconstruct_eq (s : StorageSystem) (chunks : List Chunk) (acc : CString) :
    reconstruct s chunks acc =
      (s, acc ++ (chunks.map (fun c => (s.storage.find? c.chunkHash).getD [])).flatten) := by
  unfold reconstruct
  simp only [getChunkContent_eq]
  induction chunks generalizing acc with
  | nil => simp
  | cons c cs ih =>
    simp only [List.foldl_cons, ih, List.map_cons, List.flatten_cons, List.append_assoc]

theorem storeAll_storage_find (s : StorageSystem) (segs : List CString) (k : CString) :
    (storeAll s segs).storage.find? k =
      match s.storage.find? k with
      | some v => some v
      | none => segs.find? (fun c => decide (simpleHash c = k)) := by
  induction segs generalizing s with
  | nil => cases h : s.storage.find? k <;> simp [storeAll, h]
  | cons c cs ih =>
    simp only [storeAll]
    rw [ih, storeChunk_eq]
    by_cases hc : s.storage.contains (simpleHash c) = true
    · simp only [hc, if_true]
      cases hk : s.storage.find? k with
      | some v => rfl
      | none =>
        have hne : ¬ (simpleHash c = k) := by
          intro e
          rw [e, SMap.contains_eq_true] at hc
          obtain ⟨v, hv⟩ := hc
          rw [hk] at hv; exact Option.noConfusion hv
        simp [List.find?_cons, hne]
    · have hc0 : s.storage.contains (simpleHash c) = false := by simpa using hc
      simp only [hc0, Bool.false_eq_true, if_false, SMap.find?_insert]
      by_cases e : k = simpleHash c
      · subst e
        have hn := (SMap.contains_eq_false _ _).1 hc0
        simp [hn, List.find?_cons]
      · have e2 : ¬ (simpleHash c = k) := fun h => e h.symm
        simp only [e, if_false]
        cases hk : s.storage.find? k with
        | some v => rfl
        | none => simp [List.find?_cons, e2]

theorem mem_segments (S : Nat) (hS : 0 < S) (content c : CString) :
    c ∈ segments S content ↔ ∃ j, j * S < content.length ∧ c = segment S content j := by
  unfold segments
  simp only [List.mem_map, List.mem_range]
  constructor
  · rintro ⟨j, hj, rfl⟩
    exact ⟨j, (nChunks_lt_iff S _ j hS).1 hj, rfl⟩
  · rintro ⟨j, hj, rfl⟩
    exact ⟨j, (nChunks_lt_iff S _ j hS).2 hj, rfl⟩

theorem storeAll_find_segment (s : StorageSystem) (segs : List CString)
    (H1 : ∀ c ∈ segs, ∀ v, s.storage.find? (simpleHash c) = some v → v = c)
    (H2 : ∀ c ∈ segs, ∀ d ∈ segs, simpleHash c = simpleHash d → c = d)
    (c : CString) (hc : c ∈ segs) :
    (storeAll s segs).storage.find? (simpleHash c) = some c := by
  rw [storeAll_storage_find]
  cases hk : s.storage.find? (simpleHash c) with
  | some v => simp only; rw [H1 c hc v hk]
  | none =>
    simp only
    cases hf : segs.find? (fun d => decide (simpleHash d = simpleHash c)) with
    | none =>
      rw [List.find?_eq_none] at hf
      have := hf c hc
      simp at this
    | some d =>
      have hd := List.find?_some hf
      have hmem := List.mem_of_find?_eq_some hf
      simp only [decide_eq_true_eq] at hd
      rw [H2 d hmem c hc hd]

theorem roundtrip_general (S : Nat) (hS : 0 < S) (s : StorageSystem) (B : CString)
    (H1 : ∀ c ∈ segments S B, ∀ v, s.storage.find? (simpleHash c) = some v → v = c)
    (H2 : ∀ c ∈ segments S B, ∀ d ∈ segments S B, simpleHash c = simpleHash d → c = d) :
    (reconstruct (storeAll s (segments S B)) (chunksOf S B) []).2 = B := by
  rw [reconstruct_eq]
  simp only [List.nil_append]
  have hmap : (chunksOf S B).map (fun c =>
      ((storeAll s (segments S B)).storage.find? c.chunkHash).getD []) =
      (segments S B).map (fun c =>
        ((storeAll s (segments S B)).storage.find? (simpleHash c)).getD []) := by
    simp [chunksOf, segments, chunkAt, Function.comp_def]
  rw [hmap]
  have hid : (segments S B).map (fun c =>
      ((storeAll s (segments S B)).storage.find? (simpleHash c)).getD []) = segments S B := by
    conv_rhs => rw [← List.map_id (segments S B)]
    apply List.map_congr_left
    intro c hc
    rw [storeAll_find_segment s _ H1 H2 c hc]
    rfl
  rw [hid]
  exact segments_flatten S hS B

/-! ## Claims on upload followed by download -/

/-- C1, as stated, fails in two ways. With chunk size 2 the segments `ab` and
`bC` have the same `simpleHash`, so uploading `abbC` into an empty store and
reconstructing it gives `abab`. And a content too long for `int` is cut short: at
chunk size `2^30` a content of `2^31` bytes gives `totalSize = -2^31`, no chunk is
made and the reconstruction is empty. -/
theorem roundtrip_counterexample :
    (simpleHash [97, 98] = simpleHash [98, 67] ∧
      ∃ (s' : StorageSystem) (chunks : List Chunk),
        splitIntoChunks (StorageSystem.init 2) [97, 98, 98, 67] = Outcome.ret (s', chunks) ∧
        (reconstruct s' chunks []).2 = [97, 98, 97, 98] ∧
        (reconstruct s' chunks []).2 ≠ [97, 98, 98, 67]) ∧
    (∃ (s' : StorageSystem) (chunks : List Chunk),
      splitIntoChunks (StorageSystem.init 1073741824) (List.replicate 2147483648 97) =
        Outcome.ret (s', chunks) ∧
      (reconstruct s' chunks []).2 = [] ∧
      (reconstruct s' chunks []).2 ≠ List.replicate 2147483648 97) := by
  have h0 : intLength (List.replicate 2147483648 (97 : CChar)) = 0 := by
    rw [intLength_replicate, wrapInt_eq]
    omega
  have hne : ([] : CString) ≠ List.replicate 2147483648 97 :=
    fun h => replicate_ne_nil 2147483648 97 (by norm_num) h.symm
  exact ⟨⟨by decide, _, _, splitIntoChunks_eq 2 (by decide) _ rfl _ (by decide),
      by decide, by decide⟩,
    _, _, splitIntoChunks_none 1073741824 (by norm_num) (StorageSystem.init 1073741824) rfl
      (List.replicate 2147483648 97) h0, rfl, hne⟩

/-- C1, amended. Round trip without collisions: for every byte string `B` and
chunk size `S ≥ 1` such that the chunking of `B` stays in the range of `int`
(`ceil(len / S) * S ≤ 2^31 - 1`) and any two segments of `B` with the same
`simpleHash` are equal, uploading `B` into the empty store `StorageSystem(S)` and
concatenating `getChunkContent(chunkHash)` over the returned chunk list gives
exactly `B`. -/
theorem roundtrip_fresh (S : Nat) (B : CString) (hS : 1 ≤ S)
    (hb : (B.length + S - 1) / S * S ≤ 2147483647)
    (hcf : ∀ i j : Nat, i * S < B.length → j * S < B.length →
      simpleHash ((B.drop (i * S)).take S) = simpleHash ((B.drop (j * S)).take S) →
      (B.drop (i * S)).take S = (B.drop (j * S)).take S) :
    ∃ (s' : StorageSystem) (chunks : List Chunk),
      splitIntoChunks (StorageSystem.init (S : Int)) B = Outcome.ret (s', chunks) ∧
      (reconstruct s' chunks []).2 = B := by
  have hS0 : 0 < S := hS
  refine ⟨_, _, splitIntoChunks_eq S hS0 _ rfl B hb, ?_⟩
  apply roundtrip_general S hS0
  · intro c _ v hv
    simp [StorageSystem.init, SMap.find?_empty] at hv
  · intro c hc d hd hcd
    obtain ⟨i, hi, rfl⟩ := (mem_segments S hS0 B c).1 hc
    obtain ⟨j, hj, rfl⟩ := (mem_segments S hS0 B d).1 hd
    exact hcf i j hi hj hcd

/-- C1 amended, at chunk size 2 on the content `abcd`. -/
theorem roundtrip_fresh_witness :
    ∃ (s' : StorageSystem) (chunks : List Chunk),
      splitIntoChunks (StorageSystem.init ((2 : Nat) : Int)) [97, 98, 99, 100] =
        Outcome.ret (s', chunks) ∧
      (reconstruct s' chunks []).2 = [97, 98, 99, 100] :=
  roundtrip_fresh 2 [97, 98, 99, 100] (by decide) (by decide) (by
    intro i j hi hj
    have hi2 : i < 2 := by simp only [List.length_cons, List.length_nil] at hi; omega
    have hj2 : j < 2 := by simp only [List.length_cons, List.length_nil] at hj; omega
    interval_cases i <;> interval_cases j <;> decide)

/-- C6, as stated, fails: in `danglingState` the second key of the file is absent
from the store, yet `downloadFile` returns `true` and hands back the bytes of the
first chunk alone. -/
theorem downloadFile_missing_counterexample :
    danglingState.storageSystem.storage.contains [49] = false ∧
    (downloadFile danglingState [102] [120]).2.1 = true ∧
    (downloadFile danglingState [102] [120]).2.2 = [97, 98] := by
  decide

/-- C6, amended. A missing chunk does not make the download fail: when a user is
logged in and owns a file of the requested name, `downloadFile` returns `true`
and the content handed back is the concatenation, in order, of the payloads
stored under the keys of the chunk list, a key absent from the store contributing
no bytes; the store is left as it was. -/
theorem downloadFile_missing_chunk (s : CloudStorageSystem) (fileName fileContent : CString)
    (file : FileInfo) (hlog : s.isLoggedIn = true)
    (hfile : ((s.userFiles.find? s.currentUser).getD []).find?
      (fun f => decide (f.fileName = fileName)) = some file) :
    (downloadFile s fileName fileContent).2.1 = true ∧
    (downloadFile s fileName fileContent).2.2 =
      (file.chunks.map
        (fun c => (s.storageSystem.storage.find? c.chunkHash).getD [])).flatten ∧
    (downloadFile s fileName fileContent).1.storageSystem = s.storageSystem := by
  unfold downloadFile
  simp only [hlog, if_true, SMap.subscript_snd, hfile, reconstruct_eq, List.nil_append,
    and_self]

/-- C6 amended, on `danglingState`. -/
theorem downloadFile_missing_chunk_witness :
    (downloadFile danglingState [102] [120]).2.1 = true ∧
    (downloadFile danglingState [102] [120]).2.2 =
      ([({ chunkHash := simpleHash [97, 98], chunkIndex := 0, chunkSize := 2 } : Chunk),
        { chunkHash := [49], chunkIndex := 1, chunkSize := 1 }].map
        (fun c => (danglingState.storageSystem.storage.find? c.chunkHash).getD [])).flatten ∧
    (downloadFile danglingState [102] [120]).1.storageSystem = danglingState.storageSystem :=
  downloadFile_missing_chunk danglingState [102] [120]
    { fileName := [102],
      chunks := [{ chunkHash := simpleHash [97, 98], chunkIndex := 0, chunkSize := 2 },
                 { chunkHash := [49], chunkIndex := 1, chunkSize := 1 }],
      fileSize := 3, uploadDate := [], owner := [117] } (by decide) (by decide)

/-! ## Reference counts as occurrence counts -/

theorem Counted_congr (s : StorageSystem) (M N : List CString)
    (h : ∀ k, M.count k = N.count k) (hM : Counted s M) : Counted s N := by
  intro k
  rw [← h k]
  exact hM k

theorem Counted_init (chunkSz : Int) : Counted (StorageSystem.init chunkSz) [] := by
  intro k
  simp [StorageSystem.init, SMap.find?_empty, SMap.contains]

theorem Counted_store (s : StorageSystem) (M : List CString) (k c : CString)
    (h : Counted s M) : Counted (storeChunk s k c).1 (k :: M) := by
  intro k2
  rw [storeChunk_eq]
  by_cases hc : s.storage.contains k = true
  · have hcnt : M.count k ≠ 0 := (h k).2.1 hc
    have hfind := (h k).1
    simp only [hcnt, if_false] at hfind
    simp only [hc, if_true]
    by_cases e : k2 = k
    · subst e
      simp only [SMap.find?_insert_self, hfind, Option.getD_some, List.count_cons_self, hc]
      simp
    · rw [SMap.find?_insert_ne _ _ _ _ e, List.count_cons_of_ne e]
      exact h k2
  · have hc0 : s.storage.contains k = false := by simpa using hc
    have hcnt : M.count k = 0 := by
      by_contra hne
      rw [(h k).2.2 hne] at hc0
      exact Bool.noConfusion hc0
    simp only [hc0, Bool.false_eq_true, if_false]
    by_cases e : k2 = k
    · subst e
      simp only [SMap.find?_insert_self, List.count_cons_self, hcnt, SMap.contains_insert]
      simp
    · rw [SMap.find?_insert_ne _ _ _ _ e, List.count_cons_of_ne e, SMap.contains_insert]
      simp only [e, decide_False, Bool.false_or]
      exact h k2

theorem Counted_delete (s : StorageSystem) (M : List CString) (k : CString)
    (h : Counted s (k :: M)) : Counted (deleteChunk s k) M := by
  intro k2
  have hcnt : (k :: M).count k ≠ 0 := by simp
  have hc : s.storage.contains k = true := (h k).2.2 hcnt
  have hfind : s.refCount.find? k = some ((M.count k + 1 : Nat) : Int) := by
    have h0 := (h k).1
    simp only [List.count_cons_self, Nat.add_one_ne_zero, if_false] at h0
    exact h0
  rw [deleteChunk_eq]
  simp only [hc, if_true, hfind, Option.getD_some]
  by_cases hz : M.count k = 0
  · have hle : ((M.count k + 1 : Nat) : Int) - 1 ≤ 0 := by rw [hz]; simp
    simp only [hle, if_true]
    by_cases e : k2 = k
    · subst e
      simp only [SMap.find?_erase_self, hz, if_true, SMap.contains_erase]
      simp
    · have := h k2
      rw [List.count_cons_of_ne e] at this
      rw [SMap.find?_erase_ne _ _ _ e, SMap.contains_erase]
      simp only [e, decide_False, Bool.not_false, Bool.true_and]
      exact this
  · have hle : ¬ (((M.count k + 1 : Nat) : Int) - 1 ≤ 0) := by push_cast; omega
    simp only [hle, if_false]
    by_cases e : k2 = k
    · subst e
      simp only [SMap.find?_insert_self, hz, if_false, hc]
      simp [hz]
    · have := h k2
      rw [List.count_cons_of_ne e] at this
      rw [SMap.find?_insert_ne _ _ _ _ e]
      exact this

theorem Counted_storeAll (s : StorageSystem) (M : List CString) (segs : List CString)
    (h : Counted s M) : Counted (storeAll s segs) (segs.map simpleHash ++ M) := by
  induction segs generalizing s M with
  | nil => simpa [storeAll] using h
  | cons c cs ih =>
    simp only [storeAll]
    refine Counted_congr _ _ _ ?_ (ih _ _ (Counted_store s M (simpleHash c) c h))
    intro k
    simp only [List.map_cons, List.cons_append, List.count_append, List.count_cons]
    omega

theorem Counted_release (s : StorageSystem) (M : List CString) (chunks : List Chunk)
    (h : Counted s (chunks.map (fun c => c.chunkHash) ++ M)) :
    Counted (releaseChunks s chunks) M := by
  unfold releaseChunks
  induction chunks generalizing s with
  | nil => simpa using h
  | cons c cs ih =>
    simp only [List.foldl_cons]
    apply ih
    exact Counted_delete s _ c.chunkHash (by simpa using h)

theorem Counted_deleteAll (s : StorageSystem) (M : List CString) (ms : List (List Chunk))
    (h : Counted s (keysOf ms ++ M)) : Counted (deleteAll s ms) M := by
  unfold deleteAll
  induction ms generalizing s with
  | nil => simpa [keysOf] using h
  | cons cs rest ih =>
    simp only [List.foldl_cons]
    apply ih
    apply Counted_release
    simpa [keysOf, List.append_assoc] using h

theorem Counted_nil_empty (s : StorageSystem) (h : Counted s []) :
    s.storage.entries = [] ∧ s.refCount.entries = [] := by
  refine ⟨SMap.eq_empty_of_find_none _ ?_, SMap.eq_empty_of_find_none _ ?_⟩
  · intro k
    have := (h k).2
    simp only [List.count_nil, ne_eq, not_true_eq_false, iff_false, Bool.not_eq_true] at this
    exact (SMap.contains_eq_false _ _).1 this
  · intro k
    simpa using (h k).1

theorem storeAll_chunkSize (s : StorageSystem) (segs : List CString) :
    (storeAll s segs).chunkSize = s.chunkSize := by
  induction segs generalizing s with
  | nil => rfl
  | cons c cs ih => simp only [storeAll, ih, storeChunk_chunkSize]

theorem uploadAll_counted (S : Nat) (hS : 0 < S) (contents : List CString) :
    (∀ B ∈ contents, nChunks S (intLength B) * S ≤ 2147483647) →
    ∀ (s : StorageSystem) (M : List CString), s.chunkSize = (S : Int) → Counted s M →
      ∃ (s1 : StorageSystem) (ms : List (List Chunk)),
        uploadAll s contents = Outcome.ret (s1, ms) ∧ ms.length = contents.length ∧
        Counted s1 (keysOf ms ++ M) := by
  induction contents with
  | nil =>
    intro _ s M _ h
    exact ⟨s, [], rfl, rfl, by simpa [keysOf] using h⟩
  | cons B0 Bs ih =>
    intro hb s M hs h
    have hb0 := hb B0 (List.mem_cons_self _ _)
    generalize hB : B0.take (intLength B0) = B at *
    have h1 := Counted_storeAll s M (segments S B) h
    obtain ⟨s2, ms, hup, hlen, hcnt⟩ :=
      ih (fun C hC => hb C (List.mem_cons_of_mem _ hC))
        (storeAll s (segments S B)) _ (by rw [storeAll_chunkSize]; exact hs) h1
    refine ⟨s2, chunksOf S B :: ms, ?_, by simp [hlen], ?_⟩
    · simp only [uploadAll, splitIntoChunks_take S hS s hs B0 hb0, hB, hup]
    · refine Counted_congr _ _ _ ?_ hcnt
      intro k
      simp only [keysOf, List.flatMap_cons, chunksOf_map_hash, List.count_append]
      omega

/-! ## Statistics after uploads -/

theorem storeAll_inv (s : StorageSystem) (segs : List CString) (h : StoreInv s) :
    StoreInv (storeAll s segs) := by
  induction segs generalizing s with
  | nil => exact h
  | cons c cs ih => exact ih _ (storeChunk_inv s _ c h)

/-- C10 as stated fails when the loop counter leaves the range of `int`: at
chunk size `2^30 + 1` the upload of a content of `2^30 + 2` bytes ends in
`std::out_of_range` (the third value of `i` is negative), so the sequence of
uploads does not complete and no chunk list is returned for deletion. -/
theorem refcount_balance_counterexample :
    uploadAll (StorageSystem.init 1073741825) [List.replicate 1073741826 97] =
      Outcome.outOfRange ∧
    ¬ ∃ (s1 : StorageSystem) (ms : List (List Chunk)),
      uploadAll (StorageSystem.init 1073741825) [List.replicate 1073741826 97] =
        Outcome.ret (s1, ms) := by
  have h : uploadAll (StorageSystem.init 1073741825) [List.replicate 1073741826 97] =
      Outcome.outOfRange := by
    rw [uploadAll, splitIntoChunks_overflow (StorageSystem.init 1073741825) rfl]
  refine ⟨h, ?_⟩
  rintro ⟨s1, ms, h1⟩
  rw [h] at h1
  cases h1

/-- C10. Refcount balance: from the empty store, with a chunk size `S ≥ 1`, after
any finite sequence of uploads of contents for which the loop counter stays in the
range of `int` (`ceil(t / S) * S ≤ 2^31 - 1`, `t` being the length as held in
`int totalSize`, `intLength B`), followed by the release of every returned chunk
list exactly once, in any order, `getUniqueChunks()` and `getTotalChunks()` are
both 0. -/
theorem refcount_balance (S : Nat) (contents : List CString) (hS : 1 ≤ S)
    (hb : ∀ B ∈ contents, (intLength B + S - 1) / S * S ≤ 2147483647) :
    ∃ (s1 : StorageSystem) (ms : List (List Chunk)),
      uploadAll (StorageSystem.init (S : Int)) contents = Outcome.ret (s1, ms) ∧
      ms.length = contents.length ∧
      ∀ ms2 : List (List Chunk), ms2.Perm ms →
        getUniqueChunks (deleteAll s1 ms2) = 0 ∧ getTotalChunks (deleteAll s1 ms2) = 0 := by
  obtain ⟨s1, ms, hup, hlen, hcnt⟩ :=
    uploadAll_counted S hS contents hb (StorageSystem.init (S : Int)) [] rfl (Counted_init _)
  refine ⟨s1, ms, hup, hlen, ?_⟩
  intro ms2 hperm
  have hc2 : Counted s1 (keysOf ms2 ++ []) := by
    refine Counted_congr _ _ _ ?_ hcnt
    intro k
    simp only [List.append_nil, keysOf, List.count]
    exact (List.Perm.countP_eq _ (List.Perm.flatMap_right _ hperm)).symm
  have hempty := Counted_nil_empty _ (Counted_deleteAll s1 [] ms2 hc2)
  constructor
  · simp [getUniqueChunks, SMap.size, hempty.1]
  · simp [getTotalChunks, hempty.2]

/-- C10, at chunk size 2 with two uploads that share a chunk. -/
theorem refcount_balance_witness :
    ∃ (s1 : StorageSystem) (ms : List (List Chunk)),
      uploadAll (StorageSystem.init ((2 : Nat) : Int)) [[97, 98, 99], [97, 98]] =
        Outcome.ret (s1, ms) ∧
      ms.length = ([[97, 98, 99], [97, 98]] : List CString).length ∧
      ∀ ms2 : List (List Chunk), ms2.Perm ms →
        getUniqueChunks (deleteAll s1 ms2) = 0 ∧ getTotalChunks (deleteAll s1 ms2) = 0 :=
  refcount_balance 2 [[97, 98, 99], [97, 98]] (by decide) (by decide)

/-! ## Keys listed by the file layer -/

theorem count_flatMap_int {α : Type} (l : List α) (f : α → List CString) (k : CString) :
    (((l.flatMap f).count k : Nat) : Int) = (l.map (fun a => (((f a).count k : Nat) : Int))).sum := by
  induction l with
  | nil => simp
  | cons a rest ih =>
    simp only [List.flatMap_cons, List.count_append, List.map_cons, List.sum_cons]
    push_cast
    rw [ih]

theorem allKeysOf_count (m : SMap (List FileInfo)) (k : CString) :
    (((allKeysOf m).count k : Nat) : Int) =
      (m.entries.map (fun p => (((fileKeys p.2).count k : Nat) : Int))).sum :=
  count_flatMap_int m.entries (fun e => fileKeys e.2) k

theorem allKeysOf_insert (m : SMap (List FileInfo)) (u : CString) (files : List FileInfo)
    (k : CString) :
    (((allKeysOf (m.insert u files)).count k : Nat) : Int) =
      ((allKeysOf m).count k : Nat) - ((fileKeys ((m.find? u).getD [])).count k : Nat) +
        ((fileKeys files).count k : Nat) := by
  rw [allKeysOf_count, allKeysOf_count]
  have h := rawInsert_sum (fun fs : List FileInfo => (((fileKeys fs).count k : Nat) : Int))
    u files m.entries m.sorted
  simp only [SMap.insert]
  rw [h]
  have hold : ((rawFind u m.entries).map
      (fun fs : List FileInfo => (((fileKeys fs).count k : Nat) : Int))).getD 0 =
      ((fileKeys ((m.find? u).getD [])).count k : Nat) := by
    unfold SMap.find?
    cases rawFind u m.entries <;> simp [fileKeys]
  rw [hold]

theorem allKeysOf_subscript (m : SMap (List FileInfo)) (u k : CString) :
    (allKeysOf (m.subscript u []).1).count k = (allKeysOf m).count k := by
  unfold SMap.subscript
  cases h : m.find? u with
  | some v => rfl
  | none =>
    have := allKeysOf_insert m u [] k
    simp only [h, Option.getD_none, fileKeys, List.flatMap_nil, List.count_nil,
      Nat.cast_zero, sub_zero, add_zero] at this
    simpa using this

theorem subscript_find {β : Type} (m : SMap β) (u : CString) (d : β) :
    (m.subscript u d).1.find? u = some ((m.find? u).getD d) := by
  unfold SMap.subscript
  cases h : m.find? u with
  | some v => simp [h]
  | none => simp [SMap.find?_insert_self]

theorem subscript_contains {β : Type} (m : SMap β) (u k : CString) (d : β) :
    (m.subscript u d).1.contains k = (decide (k = u) || m.contains k) := by
  unfold SMap.subscript
  cases h : m.find? u with
  | some v =>
    by_cases e : k = u
    · subst e; simp [SMap.contains, h]
    · simp [e]
  | none => simp only [SMap.contains_insert]

theorem occurrences_eq (s : CloudStorageSystem) (k : CString) :
    occurrences s k = (allKeysOf s.userFiles).count k := by
  unfold occurrences allKeysOf fileKeys
  rw [List.count_flatMap]
  congr 1
  apply List.map_congr_left
  intro e _
  simp only [Function.comp]
  rw [List.count_flatMap]
  congr 1
  apply List.map_congr_left
  intro f _
  simp only [Function.comp, List.count, List.countP_map]
  congr 1
  funext c
  by_cases h : c.chunkHash = k <;> simp [h]

theorem fileKeys_eraseP (l : List FileInfo) (p : FileInfo → Bool) (file : FileInfo)
    (h : l.find? p = some file) (k : CString) :
    (fileKeys l).count k =
      (file.chunks.map (fun c => c.chunkHash)).count k + (fileKeys (l.eraseP p)).count k := by
  induction l with
  | nil => simp at h
  | cons a rest ih =>
    rw [List.find?_cons] at h
    cases hp : p a with
    | true =>
      simp only [hp, Option.some.injEq] at h
      subst h
      simp [fileKeys, List.eraseP_cons, hp, List.count_append]
    | false =>
      simp only [hp] at h
      have := ih h
      simp only [fileKeys, List.eraseP_cons, hp, List.flatMap_cons, List.count_append,
        Bool.false_eq_true, if_false, cond_false] at this ⊢
      omega

theorem fileKeys_append (l : List FileInfo) (f : FileInfo) (k : CString) :
    (fileKeys (l ++ [f])).count k =
      (fileKeys l).count k + (f.chunks.map (fun c => c.chunkHash)).count k := by
  simp [fileKeys, List.flatMap_append, List.count_append]

/-! ## The invariant of the file layer -/

theorem CloudInv_init : CloudInv CloudStorageSystem.init := by
  refine ⟨Counted_init 50, rfl, ?_, ?_⟩
  · intro k h; simp [CloudStorageSystem.init, SMap.contains, SMap.find?_empty] at h
  · intro h; simp [CloudStorageSystem.init] at h

theorem CloudInv_register (s : CloudStorageSystem) (username password : CString)
    (h : CloudInv s) : CloudInv (registerUser s username password).1 := by
  unfold registerUser
  by_cases hc : s.users.contains username = true
  · simp only [hc, if_true]; exact h
  · have hc0 : s.users.contains username = false := by simpa using hc
    simp only [hc0, Bool.false_eq_true, if_false]
    obtain ⟨h1, h2, h3, h4⟩ := h
    have hnone : s.userFiles.find? username = none := by
      rw [← SMap.contains_eq_false]
      cases hh : s.userFiles.contains username
      · rfl
      · rw [h3 username hh] at hc0; exact Bool.noConfusion hc0
    refine ⟨?_, h2, ?_, ?_⟩
    · refine Counted_congr _ _ _ ?_ h1
      intro k
      have := allKeysOf_insert s.userFiles username [] k
      simp only [hnone, Option.getD_none, fileKeys, List.flatMap_nil, List.count_nil,
        Nat.cast_zero, sub_zero, add_zero] at this
      simp only
      omega
    · intro k hk
      simp only [SMap.contains_insert, Bool.or_eq_true, decide_eq_true_eq] at hk ⊢
      rcases hk with hk | hk
      · exact Or.inl hk
      · exact Or.inr (h3 k hk)
    · intro hl
      simp only [SMap.contains_insert, Bool.or_eq_true, decide_eq_true_eq]
      exact Or.inr (h4 hl)

theorem CloudInv_login (s : CloudStorageSystem) (username password : CString)
    (h : CloudInv s) : CloudInv (loginUser s username password).1 := by
  unfold loginUser
  obtain ⟨h1, h2, h3, h4⟩ := h
  by_cases hc : s.users.contains username = true
  · simp only [hc, if_true]
    have hu : (s.users.subscript username User.default).1 = s.users :=
      SMap.subscript_of_contains _ _ _ hc
    split_ifs
    · exact ⟨h1, h2, by rw [hu]; exact h3, by intro _; rw [hu]; exact hc⟩
    · exact ⟨h1, h2, by rw [hu]; exact h3, by rw [hu]; exact h4⟩
  · have hc0 : s.users.contains username = false := by simpa using hc
    simp only [hc0, Bool.false_eq_true, if_false]
    exact ⟨h1, h2, h3, h4⟩

theorem CloudInv_logout (s : CloudStorageSystem) (h : CloudInv s) : CloudInv (logoutUser s) := by
  unfold logoutUser
  obtain ⟨h1, h2, h3, h4⟩ := h
  split_ifs
  · exact ⟨h1, h2, h3, by intro hl; simp at hl⟩
  · exact ⟨h1, h2, h3, h4⟩

theorem CloudInv_download (s : CloudStorageSystem) (fileName fileContent : CString)
    (h : CloudInv s) : CloudInv (downloadFile s fileName fileContent).1 := by
  unfold downloadFile
  obtain ⟨h1, h2, h3, h4⟩ := h
  by_cases hl : s.isLoggedIn = true
  · simp only [hl, if_true]
    have hcnt : Counted s.storageSystem (allKeysOf (s.userFiles.subscript s.currentUser []).1) :=
      Counted_congr _ _ _ (fun k => (allKeysOf_subscript s.userFiles s.currentUser k).symm) h1
    have hsub : ∀ k : CString, (s.userFiles.subscript s.currentUser []).1.contains k = true →
        s.users.contains k = true := by
      intro k hk
      rw [subscript_contains] at hk
      simp only [Bool.or_eq_true, decide_eq_true_eq] at hk
      rcases hk with hk | hk
      · rw [hk]; exact h4 hl
      · exact h3 k hk
    cases hf : (s.userFiles.subscript s.currentUser []).2.find?
        (fun file => decide (file.fileName = fileName)) with
    | some file =>
      simp only [reconstruct_eq]
      exact ⟨hcnt, h2, hsub, fun _ => h4 hl⟩
    | none =>
      simp only
      exact ⟨hcnt, h2, hsub, fun _ => h4 hl⟩
  · have hl0 : s.isLoggedIn = false := by simpa using hl
    simp only [hl0, Bool.false_eq_true, if_false]
    exact ⟨h1, h2, h3, h4⟩

/-! ## `uploadFile` and `deleteFile` in closed form -/

theorem uploadFile_eq (s : CloudStorageSystem) (hcs : s.storageSystem.chunkSize = 50)
    (fileName fileContent uploadDate : CString)
    (hq : s.isLoggedIn = true →
      ((s.users.find? s.currentUser).getD User.default).hasSpaceFor
        (fileContent.length : Int) = true →
      nChunks 50 fileContent.length * 50 ≤ 2147483647) :
    uploadFile s fileName fileContent uploadDate = Outcome.ret (
      if s.isLoggedIn then
        if ((s.users.find? s.currentUser).getD User.default).hasSpaceFor
            (fileContent.length : Int) then
          if ((s.userFiles.find? s.currentUser).getD []).any
              (fun file => decide (file.fileName = fileName)) then
            ({ s with users := (s.users.subscript s.currentUser User.default).1,
                      userFiles := (s.userFiles.subscript s.currentUser []).1 }, false)
          else
            ({ s with
                users := s.users.insert s.currentUser
                  (((s.users.find? s.currentUser).getD User.default).updateStorage
                    (fileContent.length : Int)),
                userFiles := s.userFiles.insert s.currentUser
                  ((s.userFiles.find? s.currentUser).getD [] ++
                    [{ fileName := fileName, chunks := chunksOf 50 fileContent,
                       fileSize := (fileContent.length : Int), uploadDate := uploadDate,
                       owner := s.currentUser }]),
                storageSystem := storeAll s.storageSystem (segments 50 fileContent) }, true)
        else ({ s with users := (s.users.subscript s.currentUser User.default).1 }, false)
      else (s, false)) := by
  unfold uploadFile
  simp only [SMap.subscript_snd, SMap.subscript_fst_insert, subscript_find, Option.getD_some]
  by_cases hl : s.isLoggedIn = true
  · by_cases hsp : ((s.users.find? s.currentUser).getD User.default).hasSpaceFor
        (fileContent.length : Int) = true
    · have hsplit := splitIntoChunks_eq 50 (by decide) s.storageSystem hcs fileContent
        (hq hl hsp)
      simp only [hl, hsp, if_true, hsplit]
      split_ifs <;> rfl
    · have hsp0 : ((s.users.find? s.currentUser).getD User.default).hasSpaceFor
          (fileContent.length : Int) = false := by simpa using hsp
      simp only [hl, hsp0, if_true, Bool.false_eq_true, if_false]
  · have hl0 : s.isLoggedIn = false := by simpa using hl
    simp only [hl0, Bool.false_eq_true, if_false]

theorem deleteFile_eq (s : CloudStorageSystem) (fileName : CString) :
    deleteFile s fileName =
      if s.isLoggedIn then
        match ((s.userFiles.find? s.currentUser).getD []).find?
            (fun file => decide (file.fileName = fileName)) with
        | some file =>
          ({ s with
              users := s.users.insert s.currentUser
                (((s.users.find? s.currentUser).getD User.default).updateStorage
                  (-file.fileSize)),
              userFiles := s.userFiles.insert s.currentUser
                (((s.userFiles.find? s.currentUser).getD []).eraseP
                  (fun file => decide (file.fileName = fileName))),
              storageSystem := releaseChunks s.storageSystem file.chunks }, true)
        | none => ({ s with userFiles := (s.userFiles.subscript s.currentUser []).1 }, false)
      else (s, false) := by
  unfold deleteFile
  simp only [SMap.subscript_snd, SMap.subscript_fst_insert]

theorem deleteChunk_chunkSize (s : StorageSystem) (k : CString) :
    (deleteChunk s k).chunkSize = s.chunkSize := by
  rw [deleteChunk_eq]; split_ifs <;> rfl

theorem releaseChunks_chunkSize (s : StorageSystem) (chunks : List Chunk) :
    (releaseChunks s chunks).chunkSize = s.chunkSize := by
  unfold releaseChunks
  induction chunks generalizing s with
  | nil => rfl
  | cons c cs ih => simp only [List.foldl_cons, ih, deleteChunk_chunkSize]

theorem CloudInv_upload (s s' : CloudStorageSystem) (fileName fileContent uploadDate : CString)
    (ok : Bool) (h : CloudInv s)
    (hq : s.isLoggedIn = true →
      ((s.users.find? s.currentUser).getD User.default).hasSpaceFor
        (fileContent.length : Int) = true →
      nChunks 50 fileContent.length * 50 ≤ 2147483647)
    (hup : uploadFile s fileName fileContent uploadDate = Outcome.ret (s', ok)) :
    CloudInv s' := by
  obtain ⟨h1, h2, h3, h4⟩ := h
  rw [uploadFile_eq s h2 _ _ _ hq] at hup
  simp only [Outcome.ret.injEq] at hup
  have hs' := congrArg Prod.fst hup
  simp only at hs'
  rw [← hs']
  have hsubU : ∀ k : CString, s.users.contains k = true →
      (s.users.subscript s.currentUser User.default).1.contains k = true := by
    intro k hk; rw [subscript_contains, hk]; simp
  have hcntF : Counted s.storageSystem (allKeysOf (s.userFiles.subscript s.currentUser []).1) :=
    Counted_congr _ _ _ (fun k => (allKeysOf_subscript s.userFiles s.currentUser k).symm) h1
  by_cases hl : s.isLoggedIn = true
  · have hcu := h4 hl
    simp only [hl, if_true]
    by_cases hsp : ((s.users.find? s.currentUser).getD User.default).hasSpaceFor
        (fileContent.length : Int) = true
    · simp only [hsp, if_true]
      by_cases hany : ((s.userFiles.find? s.currentUser).getD []).any
          (fun file => decide (file.fileName = fileName)) = true
      · simp only [hany, if_true]
        refine ⟨hcntF, h2, ?_, fun _ => hsubU _ hcu⟩
        intro k hk
        rw [subscript_contains] at hk
        simp only [Bool.or_eq_true, decide_eq_true_eq] at hk
        rcases hk with hk | hk
        · rw [hk]; exact hsubU _ hcu
        · exact hsubU _ (h3 k hk)
      · have hany0 : ((s.userFiles.find? s.currentUser).getD []).any
            (fun file => decide (file.fileName = fileName)) = false := by simpa using hany
        simp only [hany0, Bool.false_eq_true, if_false]
        refine ⟨?_, ?_, ?_, ?_⟩
        · refine Counted_congr _ _ _ ?_
            (Counted_storeAll s.storageSystem (allKeysOf s.userFiles)
              (segments 50 fileContent) h1)
          intro k
          have hi := allKeysOf_insert s.userFiles s.currentUser
            ((s.userFiles.find? s.currentUser).getD [] ++
              [{ fileName := fileName, chunks := chunksOf 50 fileContent,
                 fileSize := (fileContent.length : Int), uploadDate := uploadDate,
                 owner := s.currentUser }]) k
          rw [fileKeys_append] at hi
          simp only [chunksOf_map_hash] at hi
          rw [List.count_append]
          dsimp only
          push_cast at hi
          omega
        · simp only [storeAll_chunkSize]; exact h2
        · intro k hk
          simp only [SMap.contains_insert, Bool.or_eq_true, decide_eq_true_eq] at hk ⊢
          rcases hk with hk | hk
          · exact Or.inl hk
          · exact Or.inr (h3 k hk)
        · intro _
          simp [SMap.contains_insert]
    · have hsp0 : ((s.users.find? s.currentUser).getD User.default).hasSpaceFor
          (fileContent.length : Int) = false := by simpa using hsp
      simp only [hsp0, Bool.false_eq_true, if_false]
      exact ⟨h1, h2, fun k hk => hsubU _ (h3 k hk), fun _ => hsubU _ hcu⟩
  · have hl0 : s.isLoggedIn = false := by simpa using hl
    simp only [hl0, Bool.false_eq_true, if_false]
    exact ⟨h1, h2, h3, h4⟩

theorem CloudInv_delete (s : CloudStorageSystem) (fileName : CString) (h : CloudInv s) :
    CloudInv (deleteFile s fileName).1 := by
  obtain ⟨h1, h2, h3, h4⟩ := h
  rw [deleteFile_eq]
  by_cases hl : s.isLoggedIn = true
  · have hcu := h4 hl
    simp only [hl, if_true]
    cases hf : ((s.userFiles.find? s.currentUser).getD []).find?
        (fun file => decide (file.fileName = fileName)) with
    | some file =>
      simp only
      refine ⟨?_, ?_, ?_, ?_⟩
      · apply Counted_release
        refine Counted_congr _ _ _ ?_ h1
        intro k
        have hi := allKeysOf_insert s.userFiles s.currentUser
          (((s.userFiles.find? s.currentUser).getD []).eraseP
            (fun file => decide (file.fileName = fileName))) k
        have he := fileKeys_eraseP _ _ file hf k
        rw [List.count_append]
        dsimp only
        omega
      · rw [releaseChunks_chunkSize]; exact h2
      · intro k hk
        simp only [SMap.contains_insert, Bool.or_eq_true, decide_eq_true_eq] at hk ⊢
        rcases hk with hk | hk
        · exact Or.inl hk
        · exact Or.inr (h3 k hk)
      · intro _
        simp [SMap.contains_insert]
    | none =>
      simp only
      refine ⟨Counted_congr _ _ _
        (fun k => (allKeysOf_subscript s.userFiles s.currentUser k).symm) h1, h2, ?_,
        fun _ => hcu⟩
      intro k hk
      rw [subscript_contains] at hk
      simp only [Bool.or_eq_true, decide_eq_true_eq] at hk
      rcases hk with hk | hk
      · rw [hk]; exact hcu
      · exact h3 k hk
  · have hl0 : s.isLoggedIn = false := by simpa using hl
    simp only [hl0, Bool.false_eq_true, if_false]
    exact ⟨h1, h2, h3, h4⟩

theorem mem_allKeysOf (m : SMap (List FileInfo)) (e : CString × List FileInfo)
    (f : FileInfo) (c : Chunk) (he : e ∈ m.entries) (hf : f ∈ e.2) (hc : c ∈ f.chunks) :
    c.chunkHash ∈ allKeysOf m := by
  unfold allKeysOf fileKeys
  simp only [List.mem_flatMap, List.mem_map]
  exact ⟨e, he, f, hf, c, hc, rfl⟩

theorem sum_nonneg_of_forall (l : List Int) (h : ∀ x ∈ l, 0 ≤ x) : 0 ≤ l.sum := by
  induction l with
  | nil => simp
  | cons a rest ih =>
    simp only [List.sum_cons]
    have h1 := h a (List.mem_cons_self _ _)
    have h2 := ih (fun x hx => h x (List.mem_cons_of_mem _ hx))
    omega

/-! ## The invariant of the accounts -/

theorem fileSize_eraseP (l : List FileInfo) (p : FileInfo → Bool) (file : FileInfo)
    (h : l.find? p = some file) :
    (l.map (fun f => f.fileSize)).sum =
      file.fileSize + ((l.eraseP p).map (fun f => f.fileSize)).sum := by
  induction l with
  | nil => simp at h
  | cons a rest ih =>
    rw [List.find?_cons] at h
    cases hp : p a with
    | true =>
      simp only [hp, Option.some.injEq] at h
      subst h
      simp [List.eraseP_cons, hp]
    | false =>
      simp only [hp] at h
      have := ih h
      simp only [List.eraseP_cons, hp, cond_false, List.map_cons, List.sum_cons] at this ⊢
      omega

theorem logged_subscripts (s : CloudStorageSystem) (hc : CloudInv s) (ha : AccountInv s)
    (hl : s.isLoggedIn = true) :
    (s.users.subscript s.currentUser User.default).1 = s.users ∧
    (s.userFiles.subscript s.currentUser []).1 = s.userFiles ∧
    (∃ user : User, s.users.find? s.currentUser = some user) ∧
    (∃ files : List FileInfo, s.userFiles.find? s.currentUser = some files) := by
  have hu := hc.2.2.2 hl
  have hf := ha.1 _ hu
  exact ⟨SMap.subscript_of_contains _ _ _ hu, SMap.subscript_of_contains _ _ _ hf,
    (SMap.contains_eq_true _ _).1 hu, (SMap.contains_eq_true _ _).1 hf⟩

/-- A content that passes the quota test of a logged-in user has at most 1000000
bytes, so its chunking at size 50 stays in the range of `int`. -/
theorem upload_in_range (s : CloudStorageSystem) (hc : CloudInv s) (ha : AccountInv s)
    (fileContent : CString) (hl : s.isLoggedIn = true)
    (hsp : ((s.users.find? s.currentUser).getD User.default).hasSpaceFor
      (fileContent.length : Int) = true) :
    nChunks 50 fileContent.length * 50 ≤ 2147483647 := by
  obtain ⟨_, _, ⟨user, hu⟩, ⟨files, hf⟩⟩ := logged_subscripts s hc ha hl
  obtain ⟨_, a2, a3⟩ := ha
  have hu2 := a2 _ user hu
  rw [hf] at hu2
  simp only [Option.getD_some] at hu2
  have hnn : 0 ≤ (files.map (fun f => f.fileSize)).sum := by
    apply sum_nonneg_of_forall
    intro x hx
    obtain ⟨f, hfm, rfl⟩ := List.mem_map.1 hx
    exact (a3 _ files f hf hfm).2
  rw [hu] at hsp
  simp only [Option.getD_some, User.hasSpaceFor, decide_eq_true_eq] at hsp
  have hlim := hu2.1
  have hused := hu2.2.1
  have hlen : fileContent.length ≤ 1000000 := by omega
  have hlt := nChunks_mul_lt 50 fileContent.length (by decide)
  omega

theorem AccountInv_init : AccountInv CloudStorageSystem.init := by
  refine ⟨?_, ?_, ?_⟩
  · intro k h; simp [CloudStorageSystem.init, SMap.contains, SMap.find?_empty] at h
  · intro u user h; simp [CloudStorageSystem.init, SMap.find?_empty] at h
  · intro u files f h; simp [CloudStorageSystem.init, SMap.find?_empty] at h

theorem AccountInv_register (s : CloudStorageSystem) (username password : CString)
    (ha : AccountInv s) : AccountInv (registerUser s username password).1 := by
  unfold registerUser
  by_cases hc : s.users.contains username = true
  · simp only [hc, if_true]; exact ha
  · have hc0 : s.users.contains username = false := by simpa using hc
    simp only [hc0, Bool.false_eq_true, if_false]
    obtain ⟨a1, a2, a3⟩ := ha
    refine ⟨?_, ?_, ?_⟩
    · intro k hk
      simp only [SMap.contains_insert, Bool.or_eq_true, decide_eq_true_eq] at hk ⊢
      rcases hk with hk | hk
      · exact Or.inl hk
      · exact Or.inr (a1 k hk)
    · intro u user hu
      simp only [SMap.find?_insert] at hu ⊢
      split_ifs at hu ⊢ with e
      · simp only [Option.some.injEq] at hu
        subst hu
        simp [User.init]
      · exact a2 u user hu
    · intro u files f hu hf
      simp only [SMap.find?_insert] at hu
      split_ifs at hu with e
      · simp only [Option.some.injEq] at hu
        subst hu
        simp at hf
      · exact a3 u files f hu hf

theorem AccountInv_login (s : CloudStorageSystem) (username password : CString)
    (ha : AccountInv s) : AccountInv (loginUser s username password).1 := by
  unfold loginUser
  by_cases hc : s.users.contains username = true
  · simp only [hc, if_true]
    have hu : (s.users.subscript username User.default).1 = s.users :=
      SMap.subscript_of_contains _ _ _ hc
    split_ifs <;> (simp only [hu]; exact ha)
  · have hc0 : s.users.contains username = false := by simpa using hc
    simp only [hc0, Bool.false_eq_true, if_false]
    exact ha

theorem AccountInv_logout (s : CloudStorageSystem) (ha : AccountInv s) :
    AccountInv (logoutUser s) := by
  unfold logoutUser
  split_ifs
  · exact ha
  · exact ha

theorem downloadFile_accounts (s : CloudStorageSystem) (fileName fileContent : CString)
    (hc : CloudInv s) (ha : AccountInv s) :
    (downloadFile s fileName fileContent).1.users = s.users ∧
    (downloadFile s fileName fileContent).1.userFiles = s.userFiles := by
  unfold downloadFile
  by_cases hl : s.isLoggedIn = true
  · obtain ⟨_, h2, _, _⟩ := logged_subscripts s hc ha hl
    simp only [hl, if_true]
    cases hf : (s.userFiles.subscript s.currentUser []).2.find?
        (fun file => decide (file.fileName = fileName)) with
    | some file => exact ⟨rfl, h2⟩
    | none => exact ⟨rfl, h2⟩
  · have hl0 : s.isLoggedIn = false := by simpa using hl
    simp only [hl0, Bool.false_eq_true, if_false, and_self]

theorem AccountInv_download (s : CloudStorageSystem) (fileName fileContent : CString)
    (hc : CloudInv s) (ha : AccountInv s) :
    AccountInv (downloadFile s fileName fileContent).1 := by
  obtain ⟨h1, h2⟩ := downloadFile_accounts s fileName fileContent hc ha
  unfold AccountInv
  rw [h1, h2]
  exact ha

theorem uploadFile_rejected (s : CloudStorageSystem) (hc : CloudInv s) (ha : AccountInv s)
    (fileName fileContent uploadDate : CString) :
    ∃ (s' : CloudStorageSystem) (ok : Bool),
      uploadFile s fileName fileContent uploadDate = Outcome.ret (s', ok) ∧
      (ok = false ↔
        (s.isLoggedIn = false ∨
          ¬ (((s.users.find? s.currentUser).getD User.default).storageUsed +
              (fileContent.length : Int) ≤
            ((s.users.find? s.currentUser).getD User.default).storageLimit) ∨
          ∃ f : FileInfo, f ∈ (s.userFiles.find? s.currentUser).getD [] ∧
            f.fileName = fileName)) ∧
      (ok = false → s' = s) ∧
      (ok = true →
        s' = { s with
          users := s.users.insert s.currentUser
            (((s.users.find? s.currentUser).getD User.default).updateStorage
              (fileContent.length : Int)),
          userFiles := s.userFiles.insert s.currentUser
            ((s.userFiles.find? s.currentUser).getD [] ++
              [{ fileName := fileName, chunks := chunksOf 50 fileContent,
                 fileSize := (fileContent.length : Int), uploadDate := uploadDate,
                 owner := s.currentUser }]),
          storageSystem := storeAll s.storageSystem (segments 50 fileContent) }) := by
  have hq := upload_in_range _ hc ha fileContent
  obtain ⟨us, ufs, cu, li, st⟩ := s
  refine ⟨_, _, (uploadFile_eq _ hc.2.1 fileName fileContent uploadDate hq).trans
    (congrArg Outcome.ret (Prod.mk.eta).symm), ?_⟩
  cases li with
  | false =>
    simp only [Bool.false_eq_true, if_false]
    refine ⟨⟨fun _ => Or.inl trivial, fun _ => trivial⟩, fun _ => trivial, ?_⟩
    intro hx
    exact absurd hx (by simp)
  | true =>
    obtain ⟨h1, h2, _, _⟩ := logged_subscripts _ hc ha rfl
    simp only at h1 h2
    simp only [if_true]
    by_cases hsp : ((us.find? cu).getD User.default).hasSpaceFor
        (fileContent.length : Int) = true
    · have hsp2 : ((us.find? cu).getD User.default).storageUsed +
          (fileContent.length : Int) ≤ ((us.find? cu).getD User.default).storageLimit := by
        simpa [User.hasSpaceFor] using hsp
      by_cases hany : ((ufs.find? cu).getD []).any
          (fun file => decide (file.fileName = fileName)) = true
      · have hex : ∃ f : FileInfo, f ∈ (ufs.find? cu).getD [] ∧ f.fileName = fileName := by
          simpa [List.any_eq_true] using hany
        simp only [hsp, hany, if_true, h1, h2]
        refine ⟨⟨fun _ => Or.inr (Or.inr hex), fun _ => trivial⟩, fun _ => trivial, ?_⟩
        intro hx
        exact absurd hx (by simp)
      · have hany0 : ((ufs.find? cu).getD []).any
            (fun file => decide (file.fileName = fileName)) = false := by simpa using hany
        have hnex : ¬ ∃ f : FileInfo, f ∈ (ufs.find? cu).getD [] ∧ f.fileName = fileName := by
          intro hex
          apply hany
          simpa [List.any_eq_true] using hex
        simp only [hsp, hany0, if_true, Bool.false_eq_true, if_false]
        refine ⟨⟨?_, ?_⟩, ?_, fun _ => trivial⟩
        · intro hx
          exact absurd hx (by simp)
        · intro hx
          rcases hx with hx | hx | hx
          · exact absurd hx (by simp)
          · exact absurd hsp2 hx
          · exact absurd hx hnex
        · intro hx
          exact absurd hx (by simp)
    · have hsp0 : ((us.find? cu).getD User.default).hasSpaceFor
          (fileContent.length : Int) = false := by simpa using hsp
      have hsp2 : ¬ (((us.find? cu).getD User.default).storageUsed +
          (fileContent.length : Int) ≤ ((us.find? cu).getD User.default).storageLimit) := by
        simpa [User.hasSpaceFor] using hsp0
      simp only [hsp0, Bool.false_eq_true, if_false, h1]
      refine ⟨⟨fun _ => Or.inr (Or.inl hsp2), fun _ => trivial⟩, fun _ => trivial, ?_⟩
      intro hx
      exact absurd hx (by simp)

theorem AccountInv_upload_state (s : CloudStorageSystem) (hc : CloudInv s) (ha : AccountInv s)
    (hl : s.isLoggedIn = true) (fileName fileContent uploadDate : CString)
    (hsp : ((s.users.find? s.currentUser).getD User.default).storageUsed +
      (fileContent.length : Int) ≤
      ((s.users.find? s.currentUser).getD User.default).storageLimit) :
    AccountInv { s with
      users := s.users.insert s.currentUser
        (((s.users.find? s.currentUser).getD User.default).updateStorage
          (fileContent.length : Int)),
      userFiles := s.userFiles.insert s.currentUser
        ((s.userFiles.find? s.currentUser).getD [] ++
          [{ fileName := fileName, chunks := chunksOf 50 fileContent,
             fileSize := (fileContent.length : Int), uploadDate := uploadDate,
             owner := s.currentUser }]),
      storageSystem := storeAll s.storageSystem (segments 50 fileContent) } := by
  obtain ⟨_, _, ⟨user, hu⟩, ⟨files, hf⟩⟩ := logged_subscripts s hc ha hl
  obtain ⟨a1, a2, a3⟩ := ha
  rw [hu] at hsp
  simp only [Option.getD_some] at hsp
  have hu2 := a2 _ user hu
  rw [hf] at hu2
  simp only [Option.getD_some] at hu2
  refine ⟨?_, ?_, ?_⟩
  · intro k hk
    simp only [SMap.contains_insert, Bool.or_eq_true, decide_eq_true_eq] at hk ⊢
    rcases hk with hk | hk
    · exact Or.inl hk
    · exact Or.inr (a1 k hk)
  · intro u usr husr
    simp only [SMap.find?_insert] at husr ⊢
    split_ifs at husr ⊢ with e
    · simp only [hu, Option.getD_some, Option.some.injEq] at husr
      subst husr
      simp only [User.updateStorage, hf, Option.getD_some, List.map_append, List.map_cons,
        List.map_nil, List.sum_append, List.sum_cons, List.sum_nil, add_zero]
      refine ⟨hu2.1, ?_, ?_⟩
      · rw [hu2.2.1]
      · rw [hu2.1] at hsp; exact hsp
    · exact a2 u usr husr
  · intro u fl f hfl hmem
    simp only [SMap.find?_insert] at hfl
    split_ifs at hfl with e
    · simp only [hf, Option.getD_some, Option.some.injEq] at hfl
      subst hfl
      rcases List.mem_append.1 hmem with hm | hm
      · exact a3 _ files f hf hm
      · simp only [List.mem_singleton] at hm
        subst hm
        simp only
        exact ⟨(chunksOf_sizes_sum 50 (by decide) fileContent).symm, by omega⟩
    · exact a3 u fl f hfl hmem

theorem AccountInv_upload (s s' : CloudStorageSystem) (fileName fileContent uploadDate : CString)
    (ok : Bool) (hc : CloudInv s) (ha : AccountInv s)
    (hup : uploadFile s fileName fileContent uploadDate = Outcome.ret (s', ok)) :
    AccountInv s' := by
  obtain ⟨s2, ok2, heq, hiff, hfalse, htrue⟩ :=
    uploadFile_rejected s hc ha fileName fileContent uploadDate
  rw [heq] at hup
  simp only [Outcome.ret.injEq, Prod.mk.injEq] at hup
  obtain ⟨rfl, rfl⟩ := hup
  cases hok : ok2 with
  | false => rw [hfalse hok]; exact ha
  | true =>
    rw [htrue hok]
    have hnot : ¬ (ok2 = false) := by simp [hok]
    have hr := mt hiff.2 hnot
    have hl : s.isLoggedIn = true := by
      cases hh : s.isLoggedIn
      · exact absurd (Or.inl hh) hr
      · rfl
    have hsp : ((s.users.find? s.currentUser).getD User.default).storageUsed +
        (fileContent.length : Int) ≤
        ((s.users.find? s.currentUser).getD User.default).storageLimit := by
      by_contra hx
      exact hr (Or.inr (Or.inl hx))
    exact AccountInv_upload_state s hc ha hl fileName fileContent uploadDate hsp

theorem AccountInv_delete (s : CloudStorageSystem) (fileName : CString)
    (hc : CloudInv s) (ha : AccountInv s) : AccountInv (deleteFile s fileName).1 := by
  rw [deleteFile_eq]
  by_cases hl : s.isLoggedIn = true
  · obtain ⟨_, h2, ⟨user, hu⟩, ⟨files, hf⟩⟩ := logged_subscripts s hc ha hl
    simp only [hl, if_true]
    obtain ⟨a1, a2, a3⟩ := ha
    have hu2 := a2 _ user hu
    rw [hf] at hu2
    simp only [Option.getD_some] at hu2
    cases hfind : ((s.userFiles.find? s.currentUser).getD []).find?
        (fun file => decide (file.fileName = fileName)) with
    | none =>
      simp only [h2]
      exact ⟨a1, a2, a3⟩
    | some file =>
      simp only
      rw [hf] at hfind
      simp only [Option.getD_some] at hfind
      have hmem : file ∈ files := List.mem_of_find?_eq_some hfind
      have hsz := fileSize_eraseP files _ file hfind
      have hfile := a3 _ files file hf hmem
      refine ⟨?_, ?_, ?_⟩
      · intro k hk
        simp only [SMap.contains_insert, Bool.or_eq_true, decide_eq_true_eq] at hk ⊢
        rcases hk with hk | hk
        · exact Or.inl hk
        · exact Or.inr (a1 k hk)
      · intro u usr husr
        simp only [SMap.find?_insert] at husr ⊢
        split_ifs at husr ⊢ with e
        · simp only [hu, Option.getD_some, Option.some.injEq] at husr
          subst husr
          simp only [User.updateStorage, hf, Option.getD_some]
          refine ⟨hu2.1, ?_, ?_⟩
          · rw [hu2.2.1, hsz]; ring
          · have := hu2.2.2; have := hfile.2; omega
        · exact a2 u usr husr
      · intro u fl f hfl hm
        simp only [SMap.find?_insert] at hfl
        split_ifs at hfl with e
        · simp only [hf, Option.getD_some, Option.some.injEq] at hfl
          subst hfl
          exact a3 _ files f hf (List.mem_of_mem_eraseP hm)
        · exact a3 u fl f hfl hm
  · have hl0 : s.isLoggedIn = false := by simpa using hl
    simp only [hl0, Bool.false_eq_true, if_false]
    exact ha

theorem reachable_invariants (s : CloudStorageSystem) (h : CloudReachable s) :
    CloudInv s ∧ AccountInv s := by
  induction h with
  | init => exact ⟨CloudInv_init, AccountInv_init⟩
  | register s u p _ ih => exact ⟨CloudInv_register s u p ih.1, AccountInv_register s u p ih.2⟩
  | login s u p _ ih => exact ⟨CloudInv_login s u p ih.1, AccountInv_login s u p ih.2⟩
  | logout s _ ih => exact ⟨CloudInv_logout s ih.1, AccountInv_logout s ih.2⟩
  | upload s s' n c d ok _ hup ih =>
    exact ⟨CloudInv_upload s s' n c d ok ih.1 (upload_in_range s ih.1 ih.2 c) hup,
      AccountInv_upload s s' n c d ok ih.1 ih.2 hup⟩
  | download s n c _ ih =>
    exact ⟨CloudInv_download s n c ih.1, AccountInv_download s n c ih.1 ih.2⟩
  | delete s n _ ih => exact ⟨CloudInv_delete s n ih.1, AccountInv_delete s n ih.1 ih.2⟩

theorem reachable_CloudInv (s : CloudStorageSystem) (h : CloudReachable s) : CloudInv s :=
  (reachable_invariants s h).1

/-! ## Claim on reference counts and manifests -/

/-- C5. Reference counts equal manifest occurrences: in every state reachable
through `registerUser`, `loginUser`, `logoutUser`, `uploadFile`, `downloadFile`
and `deleteFile`, the reference count recorded for a key `k` is the number of
`Chunk` entries with `chunkHash = k` over all files of all users (repeats inside
one file counted), `k` is absent from the store exactly when that number is 0,
and every key of every listed file is present in the store. -/
theorem reachable_refcount_occurrences (s : CloudStorageSystem) (h : CloudReachable s) :
    (∀ k : CString,
      s.storageSystem.refCount.find? k =
        (if occurrences s k = 0 then none else some (occurrences s k : Int)) ∧
      (s.storageSystem.refCount.find? k).getD 0 = (occurrences s k : Int) ∧
      (s.storageSystem.storage.contains k = false ↔ occurrences s k = 0)) ∧
    (∀ (e : CString × List FileInfo) (f : FileInfo) (c : Chunk),
      e ∈ s.userFiles.entries → f ∈ e.2 → c ∈ f.chunks →
      s.storageSystem.storage.contains c.chunkHash = true) := by
  have hinv := (reachable_CloudInv s h).1
  refine ⟨?_, ?_⟩
  · intro k
    rw [occurrences_eq]
    have hk := hinv k
    refine ⟨hk.1, ?_, ?_⟩
    · rw [hk.1]
      split_ifs with h0
      · simp [h0]
      · simp
    · rw [← Bool.not_eq_true, hk.2]
      simp
  · intro e f c he hf hc
    have hmem := mem_allKeysOf s.userFiles e f c he hf hc
    exact (hinv c.chunkHash).2.2 (by
      intro h0
      rw [List.count_eq_zero] at h0
      exact h0 hmem)

/-- C5, on `demoState`. -/
theorem reachable_refcount_occurrences_witness :
    (∀ k : CString,
      demoState.storageSystem.refCount.find? k =
        (if occurrences demoState k = 0 then none else some (occurrences demoState k : Int)) ∧
      (demoState.storageSystem.refCount.find? k).getD 0 = (occurrences demoState k : Int) ∧
      (demoState.storageSystem.storage.contains k = false ↔ occurrences demoState k = 0)) ∧
    (∀ (e : CString × List FileInfo) (f : FileInfo) (c : Chunk),
      e ∈ demoState.userFiles.entries → f ∈ e.2 → c ∈ f.chunks →
      demoState.storageSystem.storage.contains c.chunkHash = true) :=
  reachable_refcount_occurrences demoState
    (CloudReachable.upload _ demoState [102] [97, 98, 99] [] true
      (CloudReachable.login _ [117] [112]
        (CloudReachable.register _ [117] [112] CloudReachable.init))
      (by decide))

/-! ## Claims on lookups -/

theorem getSavedSpace_eq (s : StorageSystem) :
    getSavedSpace s =
      ({ s with refCount := (spaceTotals s).1 }, (spaceTotals s).2.1 - (spaceTotals s).2.2) :=
  rfl

/-- C12. `getChunkContent` is a pure lookup: it returns the payload stored under
the key when the key is present (the empty string when it is absent), and in
both cases leaves `storage` and `refCount` exactly as they were. -/
theorem getChunkContent_pure (s : StorageSystem) (key : CString) :
    (∀ v : CString, s.storage.find? key = some v → (getChunkContent s key).2 = v) ∧
    (s.storage.find? key = none → (getChunkContent s key).2 = []) ∧
    (getChunkContent s key).1.storage = s.storage ∧
    (getChunkContent s key).1.refCount = s.refCount ∧
    (getChunkContent s key).1 = s := by
  rw [getChunkContent_eq]
  refine ⟨?_, ?_, rfl, rfl, rfl⟩
  · intro v hv; simp [hv]
  · intro hn; simp [hn]

/-- C16 as stated fails on a content too long for `int`: at chunk size `2^30`,
on the empty store, the content of `2^31` bytes `a` meets both conditions (nothing
is stored, and its two segments are equal), yet `totalSize = -2^31`, no chunk is
made and the reconstruction is empty. -/
theorem roundtrip_conditional_counterexample :
    (∀ (i : Nat) (v : CString),
      i * 1073741824 < (List.replicate 2147483648 (97 : CChar)).length →
      (StorageSystem.init 1073741824).storage.find?
        (simpleHash (((List.replicate 2147483648 (97 : CChar)).drop (i * 1073741824)).take
          1073741824)) = some v →
      v = ((List.replicate 2147483648 (97 : CChar)).drop (i * 1073741824)).take 1073741824) ∧
    (∀ i j : Nat, i * 1073741824 < (List.replicate 2147483648 (97 : CChar)).length →
      j * 1073741824 < (List.replicate 2147483648 (97 : CChar)).length →
      simpleHash (((List.replicate 2147483648 (97 : CChar)).drop (i * 1073741824)).take
          1073741824) =
        simpleHash (((List.replicate 2147483648 (97 : CChar)).drop (j * 1073741824)).take
          1073741824) →
      ((List.replicate 2147483648 (97 : CChar)).drop (i * 1073741824)).take 1073741824 =
        ((List.replicate 2147483648 (97 : CChar)).drop (j * 1073741824)).take 1073741824) ∧
    ∃ (s' : StorageSystem) (chunks : List Chunk),
      splitIntoChunks (StorageSystem.init 1073741824) (List.replicate 2147483648 97) =
        Outcome.ret (s', chunks) ∧
      (reconstruct s' chunks []).2 = [] ∧
      (reconstruct s' chunks []).2 ≠ List.replicate 2147483648 97 := by
  have h0 : intLength (List.replicate 2147483648 (97 : CChar)) = 0 := by
    rw [intLength_replicate, wrapInt_eq]
    omega
  have hne : ([] : CString) ≠ List.replicate 2147483648 97 :=
    fun h => replicate_ne_nil 2147483648 97 (by norm_num) h.symm
  refine ⟨?_, ?_, _, _, splitIntoChunks_none 1073741824 (by norm_num)
    (StorageSystem.init 1073741824) rfl (List.replicate 2147483648 97) h0, rfl, hne⟩
  · intro i v _ hv
    have hnone : (StorageSystem.init 1073741824).storage.find?
        (simpleHash (((List.replicate 2147483648 (97 : CChar)).drop (i * 1073741824)).take
          1073741824)) = none := SMap.find?_empty _
    rw [hnone] at hv
    exact Option.noConfusion hv
  · intro i j hi hj _
    rw [List.length_replicate] at hi hj
    rw [List.drop_replicate, List.drop_replicate, List.take_replicate, List.take_replicate]
    have e : min 1073741824 (2147483648 - i * 1073741824) =
        min 1073741824 (2147483648 - j * 1073741824) := by omega
    rw [e]

/-- C16. Collision-conditional round trip: for every store (whether or not its
two maps are consistent), a chunk size `S ≥ 1` and a content `B` whose chunking
stays in the range of `int` (`ceil(len / S) * S ≤ 2^31 - 1`), if for
every segment `c` of `B` the payload already stored under `simpleHash(c)`, when
there is one, equals `c`, and any two segments of `B` with the same `simpleHash`
are equal, then concatenating `getChunkContent` over the chunk list returned by
`splitIntoChunks(B)` gives exactly `B`. -/
theorem roundtrip_conditional (s : StorageSystem) (S : Nat) (B : CString) (hS : 1 ≤ S)
    (hs : s.chunkSize = (S : Int))
    (hb : (B.length + S - 1) / S * S ≤ 2147483647)
    (hstored : ∀ (i : Nat) (v : CString), i * S < B.length →
      s.storage.find? (simpleHash ((B.drop (i * S)).take S)) = some v →
      v = (B.drop (i * S)).take S)
    (hcf : ∀ i j : Nat, i * S < B.length → j * S < B.length →
      simpleHash ((B.drop (i * S)).take S) = simpleHash ((B.drop (j * S)).take S) →
      (B.drop (i * S)).take S = (B.drop (j * S)).take S) :
    ∃ (s' : StorageSystem) (chunks : List Chunk),
      splitIntoChunks s B = Outcome.ret (s', chunks) ∧
      (reconstruct s' chunks []).2 = B := by
  have hS0 : 0 < S := hS
  refine ⟨_, _, splitIntoChunks_eq S hS0 s hs B hb, ?_⟩
  apply roundtrip_general S hS0
  · intro c hc v hv
    obtain ⟨i, hi, rfl⟩ := (mem_segments S hS0 B c).1 hc
    exact hstored i v hi hv
  · intro c hc d hd hcd
    obtain ⟨i, hi, rfl⟩ := (mem_segments S hS0 B c).1 hc
    obtain ⟨j, hj, rfl⟩ := (mem_segments S hS0 B d).1 hd
    exact hcf i j hi hj hcd

/-- C16, at chunk size 2: `abcd` uploaded into a store that already holds `ab`. -/
theorem roundtrip_conditional_witness :
    ∃ (s' : StorageSystem) (chunks : List Chunk),
      splitIntoChunks (storeAll (StorageSystem.init 2) [[97, 98]]) [97, 98, 99, 100] =
        Outcome.ret (s', chunks) ∧
      (reconstruct s' chunks []).2 = [97, 98, 99, 100] :=
  roundtrip_conditional (storeAll (StorageSystem.init 2) [[97, 98]]) 2 [97, 98, 99, 100]
    (by decide) rfl (by decide)
    (by
      intro i v hi
      have hi2 : i < 2 := by simp only [List.length_cons, List.length_nil] at hi; omega
      interval_cases i
      · intro hv
        have h0 : (storeAll (StorageSystem.init 2) [[97, 98]]).storage.find?
            (simpleHash ((([97, 98, 99, 100] : CString).drop (0 * 2)).take 2)) =
            some [97, 98] := by decide
        rw [h0] at hv
        simp only [Option.some.injEq] at hv
        rw [← hv]; decide
      · intro hv
        have h1 : (storeAll (StorageSystem.init 2) [[97, 98]]).storage.find?
            (simpleHash ((([97, 98, 99, 100] : CString).drop (1 * 2)).take 2)) = none := by
          decide
        rw [h1] at hv
        exact Option.noConfusion hv)
    (by
      intro i j hi hj
      have hi2 : i < 2 := by simp only [List.length_cons, List.length_nil] at hi; omega
      have hj2 : j < 2 := by simp only [List.length_cons, List.length_nil] at hj; omega
      interval_cases i <;> interval_cases j <;> decide)

/-! ## Deleting a file and the other files -/

theorem deleteChunk_storage_find (s : StorageSystem) (k k2 : CString)
    (h : (deleteChunk s k).storage.contains k2 = true) :
    (deleteChunk s k).storage.find? k2 = s.storage.find? k2 := by
  rw [deleteChunk_eq] at h ⊢
  split_ifs at h ⊢ with h1 h2
  · simp only [SMap.contains_erase, Bool.and_eq_true, Bool.not_eq_true',
      decide_eq_false_iff_not] at h
    exact SMap.find?_erase_ne _ _ _ h.1
  · rfl
  · rfl

theorem releaseChunks_storage_find (s : StorageSystem) (chunks : List Chunk) (k2 : CString)
    (h : (releaseChunks s chunks).storage.contains k2 = true) :
    (releaseChunks s chunks).storage.find? k2 = s.storage.find? k2 := by
  unfold releaseChunks at h ⊢
  induction chunks generalizing s with
  | nil => rfl
  | cons c cs ih =>
    simp only [List.foldl_cons] at h ⊢
    have h1 := ih (deleteChunk s c.chunkHash) h
    rw [h1]
    apply deleteChunk_storage_find
    rw [SMap.contains_eq_true] at h ⊢
    obtain ⟨v, hv⟩ := h
    exact ⟨v, by rw [← h1]; exact hv⟩

theorem deleteFile_storage (s : CloudStorageSystem) (fileName : CString) :
    ∃ chunks : List Chunk,
      (deleteFile s fileName).1.storageSystem = releaseChunks s.storageSystem chunks := by
  rw [deleteFile_eq]
  by_cases hl : s.isLoggedIn = true
  · simp only [hl, if_true]
    cases hf : ((s.userFiles.find? s.currentUser).getD []).find?
        (fun file => decide (file.fileName = fileName)) with
    | some file => exact ⟨file.chunks, rfl⟩
    | none => exact ⟨[], rfl⟩
  · have hl0 : s.isLoggedIn = false := by simpa using hl
    simp only [hl0, Bool.false_eq_true, if_false]
    exact ⟨[], rfl⟩

theorem CloudInv_listed_present (s : CloudStorageSystem) (h : CloudInv s)
    (e : CString × List FileInfo) (f : FileInfo) (c : Chunk)
    (he : e ∈ s.userFiles.entries) (hf : f ∈ e.2) (hc : c ∈ f.chunks) :
    s.storageSystem.storage.contains c.chunkHash = true := by
  have hmem := mem_allKeysOf s.userFiles e f c he hf hc
  exact (h.1 c.chunkHash).2.2 (by
    intro h0
    rw [List.count_eq_zero] at h0
    exact h0 hmem)

theorem demoState_reachable : CloudReachable demoState :=
  CloudReachable.upload _ demoState [102] [97, 98, 99] [] true
    (CloudReachable.login _ [117] [112]
      (CloudReachable.register _ [117] [112] CloudReachable.init))
    (by decide)

theorem sharedState_reachable : CloudReachable sharedState :=
  CloudReachable.upload demoState sharedState [103] [97, 98, 99] [] true
    demoState_reachable (by decide)

/-- C11. Deleting one file never damages another: in every reachable state,
after `deleteFile` (successful or not), every key of every file still listed (of any
user, sharing chunks with the deleted file or not) is still present in the store
with the payload it had before, so the bytes reconstructed for that file are the
same as before the deletion. -/
theorem deleteFile_keeps_other_files (s : CloudStorageSystem) (fileName : CString)
    (h : CloudReachable s) :
    ∀ (e : CString × List FileInfo) (g : FileInfo),
      e ∈ (deleteFile s fileName).1.userFiles.entries → g ∈ e.2 →
      (∀ c : Chunk, c ∈ g.chunks →
        (deleteFile s fileName).1.storageSystem.storage.contains c.chunkHash = true ∧
        (deleteFile s fileName).1.storageSystem.storage.find? c.chunkHash =
          s.storageSystem.storage.find? c.chunkHash) ∧
      (reconstruct (deleteFile s fileName).1.storageSystem g.chunks []).2 =
        (reconstruct s.storageSystem g.chunks []).2 := by
  intro e g he hg
  have hinv := reachable_CloudInv _ (CloudReachable.delete s fileName h)
  obtain ⟨chunks, hst⟩ := deleteFile_storage s fileName
  have hkey : ∀ c : Chunk, c ∈ g.chunks →
      (deleteFile s fileName).1.storageSystem.storage.contains c.chunkHash = true ∧
      (deleteFile s fileName).1.storageSystem.storage.find? c.chunkHash =
        s.storageSystem.storage.find? c.chunkHash := by
    intro c hc
    have hp := CloudInv_listed_present _ hinv e g c he hg hc
    refine ⟨hp, ?_⟩
    rw [hst] at hp ⊢
    exact releaseChunks_storage_find _ _ _ hp
  refine ⟨hkey, ?_⟩
  rw [reconstruct_eq, reconstruct_eq]
  simp only [List.nil_append]
  congr 1
  apply List.map_congr_left
  intro c hc
  rw [(hkey c hc).2]

/-- C11, on `sharedState`: after file `f` is deleted, file `g`, which has the
same chunks, still reconstructs to `abc`. -/
theorem deleteFile_keeps_other_files_witness :
    (deleteFile sharedState [102]).2 = true ∧
    (reconstruct (deleteFile sharedState [102]).1.storageSystem
      (chunksOf 50 [97, 98, 99]) []).2 =
      (reconstruct sharedState.storageSystem (chunksOf 50 [97, 98, 99]) []).2 ∧
    (reconstruct sharedState.storageSystem (chunksOf 50 [97, 98, 99]) []).2 = [97, 98, 99] :=
  ⟨by decide,
   (deleteFile_keeps_other_files sharedState [102] sharedState_reachable
      ([117], [{ fileName := [103], chunks := chunksOf 50 [97, 98, 99], fileSize := 3,
                 uploadDate := [], owner := [117] }])
      { fileName := [103], chunks := chunksOf 50 [97, 98, 99], fileSize := 3,
        uploadDate := [], owner := [117] }
      (by decide) (by decide)).2,
   by decide⟩

/-! ## Space accounting -/

theorem rawFind_of_mem {β : Type} (l : List (CString × β)) (h : Sorted l) (k : CString) (v : β)
    (hm : (k, v) ∈ l) : rawFind k l = some v := by
  induction l with
  | nil => simp at hm
  | cons p rest ih =>
    obtain ⟨k', v'⟩ := p
    unfold Sorted at h ih
    rw [List.pairwise_cons] at h
    rcases List.mem_cons.1 hm with e | hr
    · simp only [Prod.mk.injEq] at e
      simp [rawFind, e.1, e.2]
    · have hlt : strLt k' k = true := h.1 (k, v) hr
      have hne : k' ≠ k := by
        intro e; subst e; rw [strLt_irrefl] at hlt; exact Bool.noConfusion hlt
      simp only [rawFind, hne, if_false]
      exact ih h.2 hr

theorem subscript_getD_zero (m : SMap Int) (u k : CString) :
    ((m.subscript u 0).1.find? k).getD 0 = (m.find? k).getD 0 := by
  unfold SMap.subscript
  cases h : m.find? u with
  | some v => rfl
  | none =>
    simp only [SMap.find?_insert]
    split_ifs with e
    · subst e; simp [h]
    · rfl

theorem spaceFold_eq (l : List (CString × CString)) (rc : SMap Int) (t a : Int) :
    (l.foldl
      (fun (acc : SMap Int × Int × Int) pair =>
        let q := acc.1.subscript pair.1 0
        (q.1, acc.2.1 + (pair.2.length : Int) * q.2, acc.2.2 + (pair.2.length : Int)))
      (rc, t, a)).2 =
      (t + (l.map (fun p => (p.2.length : Int) * (rc.find? p.1).getD 0)).sum,
       a + (l.map (fun p => (p.2.length : Int))).sum) ∧
    (∀ k : CString,
      ((l.foldl
        (fun (acc : SMap Int × Int × Int) pair =>
          let q := acc.1.subscript pair.1 0
          (q.1, acc.2.1 + (pair.2.length : Int) * q.2, acc.2.2 + (pair.2.length : Int)))
        (rc, t, a)).1.find? k).getD 0 = (rc.find? k).getD 0) ∧
    ((∀ p ∈ l, rc.contains p.1 = true) →
      (l.foldl
        (fun (acc : SMap Int × Int × Int) pair =>
          let q := acc.1.subscript pair.1 0
          (q.1, acc.2.1 + (pair.2.length : Int) * q.2, acc.2.2 + (pair.2.length : Int)))
        (rc, t, a)).1 = rc) := by
  induction l generalizing rc t a with
  | nil => simp
  | cons p rest ih =>
    simp only [List.foldl_cons]
    obtain ⟨h1, h2, h3⟩ := ih (rc.subscript p.1 0).1
      (t + (p.2.length : Int) * (rc.subscript p.1 0).2) (a + (p.2.length : Int))
    refine ⟨?_, ?_, ?_⟩
    · rw [h1]
      simp only [subscript_getD_zero, SMap.subscript_snd, List.map_cons, List.sum_cons,
        Prod.mk.injEq]
      constructor <;> omega
    · intro k
      rw [h2 k, subscript_getD_zero]
    · intro hall
      have hp := hall p (List.mem_cons_self _ _)
      have hsub : (rc.subscript p.1 0).1 = rc := SMap.subscript_of_contains _ _ _ hp
      rw [h3 (by
        intro q hq
        rw [hsub]
        exact hall q (List.mem_cons_of_mem _ hq)), hsub]

theorem sum_map_sub {α : Type} (l : List α) (f g : α → Int) :
    (l.map f).sum - (l.map g).sum = (l.map (fun p => f p - g p)).sum := by
  induction l with
  | nil => simp
  | cons a rest ih => simp only [List.map_cons, List.sum_cons, ← ih]; omega

theorem sum_zero_of_forall (l : List Int) (h : ∀ x ∈ l, x = 0) : l.sum = 0 := by
  induction l with
  | nil => simp
  | cons a rest ih =>
    simp only [List.sum_cons]
    have h1 := h a (List.mem_cons_self _ _)
    have h2 := ih (fun x hx => h x (List.mem_cons_of_mem _ hx))
    omega

theorem StoreInv_entry_count (s : StorageSystem) (hinv : StoreInv s) (p : CString × CString)
    (hp : p ∈ s.storage.entries) :
    ∃ n : Int, s.refCount.find? p.1 = some n ∧ 0 < n := by
  have hf : s.storage.find? p.1 = some p.2 :=
    rawFind_of_mem s.storage.entries s.storage.sorted p.1 p.2 hp
  have hc : s.storage.contains p.1 = true := (SMap.contains_eq_true _ _).2 ⟨_, hf⟩
  obtain ⟨n, hn⟩ := (SMap.contains_eq_true _ _).1 ((hinv p.1).1.1 hc)
  exact ⟨n, hn, (hinv p.1).2 n hn⟩

/-- C17. Saved space is the duplicate bytes: on a store whose two maps are
consistent, `getSavedSpace()` returns the sum of payload length times reference
count minus the sum of payload lengths, that is the sum of payload length times
(reference count − 1); the value is never negative, the call leaves the store as
it was, and the value is 0 when every reference count is 1. -/
theorem getSavedSpace_value (s : StorageSystem)
    (hinv : ∀ k : CString, (s.storage.contains k = true ↔ s.refCount.contains k = true) ∧
      ∀ n : Int, s.refCount.find? k = some n → 0 < n) :
    (getSavedSpace s).2 =
      (s.storage.entries.map
        (fun p => (p.2.length : Int) * (s.refCount.find? p.1).getD 0)).sum -
      (s.storage.entries.map (fun p => (p.2.length : Int))).sum ∧
    (getSavedSpace s).2 =
      (s.storage.entries.map
        (fun p => (p.2.length : Int) * ((s.refCount.find? p.1).getD 0 - 1))).sum ∧
    0 ≤ (getSavedSpace s).2 ∧
    (getSavedSpace s).1 = s ∧
    ((∀ (k : CString) (n : Int), s.refCount.find? k = some n → n = 1) →
      (getSavedSpace s).2 = 0) := by
  have hfold := spaceFold_eq s.storage.entries s.refCount 0 0
  have hval : (getSavedSpace s).2 =
      (s.storage.entries.map
        (fun p => (p.2.length : Int) * (s.refCount.find? p.1).getD 0)).sum -
      (s.storage.entries.map (fun p => (p.2.length : Int))).sum := by
    rw [getSavedSpace_eq]
    unfold spaceTotals
    rw [hfold.1]
    simp
  have hval2 : (getSavedSpace s).2 =
      (s.storage.entries.map
        (fun p => (p.2.length : Int) * ((s.refCount.find? p.1).getD 0 - 1))).sum := by
    rw [hval, sum_map_sub]
    congr 1
    apply List.map_congr_left
    intro p _
    ring
  refine ⟨hval, hval2, ?_, ?_, ?_⟩
  · rw [hval2]
    apply sum_nonneg_of_forall
    intro x hx
    obtain ⟨p, hp, rfl⟩ := List.mem_map.1 hx
    obtain ⟨n, hn, hpos⟩ := StoreInv_entry_count s hinv p hp
    rw [hn]
    simp only [Option.getD_some]
    exact mul_nonneg (by omega) (by omega)
  · rw [getSavedSpace_eq]
    have hrc : (spaceTotals s).1 = s.refCount := by
      unfold spaceTotals
      apply hfold.2.2
      intro p hp
      obtain ⟨n, hn, _⟩ := StoreInv_entry_count s hinv p hp
      exact (SMap.contains_eq_true _ _).2 ⟨n, hn⟩
    simp only [hrc]
  · intro hone
    rw [hval2]
    apply sum_zero_of_forall
    intro x hx
    obtain ⟨p, hp, rfl⟩ := List.mem_map.1 hx
    obtain ⟨n, hn, _⟩ := StoreInv_entry_count s hinv p hp
    rw [hn, hone p.1 n hn]
    simp

/-- C17, on the store after `abc` was uploaded twice with chunk size 2: six
logical bytes, three stored, three saved. -/
theorem getSavedSpace_value_witness :
    (getSavedSpace (storeAll (StorageSystem.init 2)
      [[97, 98], [99], [97, 98], [99]])).2 = 3 ∧
    (getSavedSpace (storeAll (StorageSystem.init 2) [[97, 98], [99], [97, 98], [99]])).1 =
      storeAll (StorageSystem.init 2) [[97, 98], [99], [97, 98], [99]] :=
  ⟨((getSavedSpace_value (storeAll (StorageSystem.init 2) [[97, 98], [99], [97, 98], [99]])
      (storeAll_inv _ _ (init_inv 2))).1).trans (by decide),
   (getSavedSpace_value (storeAll (StorageSystem.init 2) [[97, 98], [99], [97, 98], [99]])
      (storeAll_inv _ _ (init_inv 2))).2.2.2.1⟩

/-! ## Upload followed by release -/

/-- C14. Upload rejection is exact and atomic: in every reachable state
`uploadFile(name, content)` returns, and it returns `false` exactly when no user
is logged in, or the current user's `storageUsed` plus the length of the content
exceeds `storageLimit`, or the current user already has a file of that name;
whenever it returns `false` the whole state (chunk store, file lists, users) is
unchanged. -/
theorem uploadFile_rejection (s : CloudStorageSystem) (fileName fileContent uploadDate : CString)
    (h : CloudReachable s) :
    ∃ (s' : CloudStorageSystem) (ok : Bool),
      uploadFile s fileName fileContent uploadDate = Outcome.ret (s', ok) ∧
      (ok = false ↔
        (s.isLoggedIn = false ∨
          ((s.users.find? s.currentUser).getD User.default).storageLimit <
            ((s.users.find? s.currentUser).getD User.default).storageUsed +
              (fileContent.length : Int) ∨
          ∃ f : FileInfo, f ∈ (s.userFiles.find? s.currentUser).getD [] ∧
            f.fileName = fileName)) ∧
      (ok = false →
        s'.storageSystem = s.storageSystem ∧ s'.userFiles = s.userFiles ∧
        s'.users = s.users ∧ s' = s) := by
  obtain ⟨hc, ha⟩ := reachable_invariants s h
  obtain ⟨s2, ok2, heq, hiff, hfalse, _⟩ :=
    uploadFile_rejected s hc ha fileName fileContent uploadDate
  refine ⟨s2, ok2, heq, ?_, ?_⟩
  · rw [hiff]
    simp only [not_le]
  · intro hok
    rw [hfalse hok]
    exact ⟨rfl, rfl, rfl, rfl⟩

/-- C14, on `demoState`: a second upload under the name `f` is refused and
changes nothing. -/
theorem uploadFile_rejection_witness :
    uploadFile demoState [102] [120, 121] [] = Outcome.ret (demoState, false) := by
  obtain ⟨s2, ok2, heq, hiff, hsame⟩ :=
    uploadFile_rejection demoState [102] [120, 121] [] demoState_reachable
  have hok : ok2 = false := hiff.2 (Or.inr (Or.inr
    ⟨{ fileName := [102], chunks := chunksOf 50 [97, 98, 99], fileSize := 3,
       uploadDate := [], owner := [117] }, by decide, rfl⟩))
  rw [heq, (hsame hok).2.2.2, hok]

/-- C19. Quota invariant: in every reachable state, for every registered user
`storageUsed` is the sum of `fileSize` over the user's file list, every listed
`fileSize` is the sum of `chunkSize` over the chunks of the file, and
`0 ≤ storageUsed ≤ storageLimit = 1000000`. -/
theorem reachable_quota_invariant (s : CloudStorageSystem) (h : CloudReachable s) :
    ∀ (u : CString) (user : User), s.users.find? u = some user →
      user.storageUsed = (((s.userFiles.find? u).getD []).map (fun f => f.fileSize)).sum ∧
      (∀ f : FileInfo, f ∈ (s.userFiles.find? u).getD [] →
        f.fileSize = (f.chunks.map (fun c => c.chunkSize)).sum) ∧
      0 ≤ user.storageUsed ∧ user.storageUsed ≤ user.storageLimit ∧
      user.storageLimit = 1000000 := by
  intro u user hu
  obtain ⟨_, a1, a2, a3⟩ := reachable_invariants s h
  obtain ⟨b1, b2, b3⟩ := a2 u user hu
  obtain ⟨files, hf⟩ := (SMap.contains_eq_true _ _).1
    (a1 u ((SMap.contains_eq_true _ _).2 ⟨user, hu⟩))
  refine ⟨b2, ?_, ?_, ?_, b1⟩
  · intro f hm
    rw [hf] at hm
    exact (a3 u files f hf hm).1
  · rw [b2, hf]
    apply sum_nonneg_of_forall
    intro x hx
    simp only [Option.getD_some, List.mem_map] at hx
    obtain ⟨f, hm, rfl⟩ := hx
    exact (a3 u files f hf hm).2
  · rw [b1]; exact b3

/-- C19, on `sharedState`, for user `u` with two files of three bytes. -/
theorem reachable_quota_invariant_witness :
    (User.mk [117] [112] 6 1000000).storageUsed =
      (((sharedState.userFiles.find? [117]).getD []).map (fun f => f.fileSize)).sum ∧
    (∀ f : FileInfo, f ∈ (sharedState.userFiles.find? [117]).getD [] →
      f.fileSize = (f.chunks.map (fun c => c.chunkSize)).sum) ∧
    0 ≤ (User.mk [117] [112] 6 1000000).storageUsed ∧
    (User.mk [117] [112] 6 1000000).storageUsed ≤ (User.mk [117] [112] 6 1000000).storageLimit ∧
    (User.mk [117] [112] 6 1000000).storageLimit = 1000000 :=
  reachable_quota_invariant sharedState sharedState_reachable [117]
    (User.mk [117] [112] 6 1000000) (by decide)

/-! ## The rolling hash -/

theorem splitIntoChunks_nil (s : StorageSystem) :
    splitIntoChunks s [] = Outcome.ret (s, []) := by
  have h0 : wrapInt (([] : CString).length : Int) = 0 := wrapInt_of_range _ (by simp) (by simp)
  unfold splitIntoChunks
  rw [h0, splitLoop, if_neg (lt_irrefl _)]

/-- C15, as stated, fails: a chunk size of 0 or of −1 is taken by the constructor
as it is, and `splitIntoChunks` called on the empty content then returns
normally with the empty chunk list; nothing is reported. -/
theorem invalid_chunk_size_counterexample :
    (StorageSystem.init 0).chunkSize = 0 ∧
    splitIntoChunks (StorageSystem.init 0) [] = Outcome.ret (StorageSystem.init 0, []) ∧
    (StorageSystem.init (-1)).chunkSize = -1 ∧
    splitIntoChunks (StorageSystem.init (-1)) [] = Outcome.ret (StorageSystem.init (-1), []) :=
  ⟨rfl, splitIntoChunks_nil _, rfl, splitIntoChunks_nil _⟩

/-- C15, amended. A chunk size below one is not rejected: the constructor stores
it unchecked, so the object built holds a chunk size that is not at least one,
with an empty store; and `splitIntoChunks` makes no check either: called on the
empty content it returns normally, with the empty chunk list and the store as
it was. -/
theorem invalid_chunk_size_accepted (chunkSz : Int) (hlt : chunkSz < 1) :
    (StorageSystem.init chunkSz).chunkSize = chunkSz ∧
    ¬ (1 ≤ (StorageSystem.init chunkSz).chunkSize) ∧
    (StorageSystem.init chunkSz).storage = SMap.empty ∧
    (StorageSystem.init chunkSz).refCount = SMap.empty ∧
    ∀ s : StorageSystem, s.chunkSize = chunkSz →
      splitIntoChunks s [] = Outcome.ret (s, []) :=
  ⟨rfl, not_le.2 hlt, rfl, rfl, fun s _ => splitIntoChunks_nil s⟩

/-- C15 amended, at chunk size 0. -/
theorem invalid_chunk_size_accepted_witness :
    (StorageSystem.init 0).chunkSize = 0 ∧
    ¬ (1 ≤ (StorageSystem.init 0).chunkSize) ∧
    (StorageSystem.init 0).storage = SMap.empty ∧
    (StorageSystem.init 0).refCount = SMap.empty ∧
    ∀ s : StorageSystem, s.chunkSize = 0 →
      splitIntoChunks s [] = Outcome.ret (s, []) :=
  invalid_chunk_size_accepted 0 (by decide)

end CloudStorage
